import Mathlib

/-!
# pos-os: the list of `sys/core/list.c`, the event handlers, the scheduler

A shallow embedding of `list.c` / `list.h` and of `event_handler.c`, a model of
the scheduler declared in `event_framework.h`, and proofs about them.

Modelling conventions.

* A pointer is `Option Nat`: `none` is `NULL`, `some a` is the address `a`.
* The C heap is split by object type into the node heap and the heap of data
  buffers.  A heap is a list indexed by address; the entry `none` means that the
  address is not (or no longer) allocated.  `malloc` returns the first address
  past the end of the heap, so a freshly allocated object never aliases a live
  one; allocation is assumed to succeed (the code never tests `malloc`'s result).
* Every function that dereferences a pointer returns an `Option`; the outer
  `none` stands for undefined behaviour (a `NULL` or dangling dereference, a
  `memcpy` past the end of the source buffer, a double `free`).
* `length` is a C `int`; it is modelled by an unbounded `Int`, since it counts
  live nodes and `int` overflow would need 2^31 of them.
* A data buffer is the list of its bytes.  The caller's source buffer of
  `listAdd` / `listInsert` is given as the list of bytes readable at `data`;
  `size` is a `Nat` (a negative `int size` is outside the model).
* The list header `struct _list_t` and a cursor `struct _list_iter_t` are
  passed and returned as values instead of living in the heap.
-/

namespace PosOs

/-- A C pointer: `none` is `NULL`. -/
abbrev Ptr := Option Nat

/-- The `struct _linked_node_t` of list.c, lines 11-15. -/
structure linked_node_t where
  data : Ptr
  next : Ptr
  prev : Ptr
deriving DecidableEq, Repr

/-- The `struct _list_t` of list.c, lines 17-22.  The `destructor` field is
set to `free` by `listCreate` and never assigned again, so it is not stored:
a call through it is a call of `free`. -/
structure list_t where
  length : Int
  first : Ptr
  last : Ptr
deriving DecidableEq, Repr

/-- The `struct _list_iter_t` of list.c, lines 24-27. -/
structure list_iter_t where
  current : Ptr
  started : Bool
deriving DecidableEq, Repr

/-- The heap: node objects and data buffers. -/
structure Heap where
  nodes : List (Option linked_node_t)
  blobs : List (Option (List Nat))
deriving DecidableEq, Repr

/-- The `FRONT` flag of list.h. -/
def FRONT : Nat := 0

/-- The `BACK` flag of list.h. -/
def BACK : Nat := 1

/-- Read the object a pointer points to; `none` for `NULL` and for an address
that is not allocated. -/
def deref {α : Type} (m : List (Option α)) (p : Ptr) : Option α :=
  match p with
  | none => none
  | some a => (m[a]?).join

/-- Overwrite the live object at `p` by `f` applied to it. -/
def modify {α : Type} (m : List (Option α)) (p : Ptr) (f : α → α) :
    Option (List (Option α)) :=
  match p with
  | none => none
  | some a =>
    match deref m (some a) with
    | none => none
    | some x => some (m.set a (some (f x)))

/-- The assignment `p->data = v`. -/
def setData (m : List (Option linked_node_t)) (p v : Ptr) :
    Option (List (Option linked_node_t)) :=
  modify m p (fun n => { n with data := v })

/-- The assignment `p->next = v`. -/
def setNext (m : List (Option linked_node_t)) (p v : Ptr) :
    Option (List (Option linked_node_t)) :=
  modify m p (fun n => { n with next := v })

/-- The assignment `p->prev = v`. -/
def setPrev (m : List (Option linked_node_t)) (p v : Ptr) :
    Option (List (Option linked_node_t)) :=
  modify m p (fun n => { n with prev := v })

/-- The library call `free(p)`: nothing for `NULL`, undefined for an address
that is not allocated. -/
def free {α : Type} (m : List (Option α)) (p : Ptr) : Option (List (Option α)) :=
  match p with
  | none => some m
  | some a =>
    match deref m (some a) with
    | none => none
    | some _ => some (m.set a none)

/-- The address `malloc` returns for a new node. -/
def mallocAddr {α : Type} (m : List (Option α)) : Nat := m.length

/-- The heap after `malloc` placed the object `x` at `mallocAddr m`. -/
def malloc {α : Type} (m : List (Option α)) (x : α) : List (Option α) :=
  m ++ [some x]

/-- The contents of a node just returned by `malloc`; every field is written
before it is read. -/
def freshNode : linked_node_t := ⟨none, none, none⟩

/-- list.c, lines 29-36: `listCreate`. -/
def listCreate : list_t :=
  { length := 0, first := none, last := none }

/-- list.c, lines 38-49: `listIterator`.  The result `none` is the `NULL`
returned for a flag that is neither `FRONT` nor `BACK`. -/
def listIterator (list : list_t) (init : Nat) : Option list_iter_t :=
  if init = FRONT then some { current := list.first, started := false }
  else if init = BACK then some { current := list.last, started := false }
  else none

/-- The first three statements shared by `listAdd` and the last two branches of
`listInsert`: allocate the node, allocate its buffer and copy `size` bytes of
`data` into it.  Returns the node's address and the new heap. -/
def newNode (h : Heap) (data : List Nat) (size : Nat) : Option (Nat × Heap) :=
  let node := mallocAddr h.nodes
  let m0 := malloc h.nodes freshNode
  let buf := mallocAddr h.blobs
  if size ≤ data.length then do
    let b1 := malloc h.blobs (data.take size)
    let m1 ← setData m0 (some node) (some buf)
    some (node, { nodes := m1, blobs := b1 })
  else none

/-- list.c, lines 51-69: `listAdd`. -/
def listAdd (h : Heap) (list : list_t) (data : List Nat) (size : Nat) :
    Option (Heap × list_t) := do
  let (node, h1) ← newNode h data size
  if list.first = none then do
    let m2 ← setPrev h1.nodes (some node) none
    let m3 ← setNext m2 (some node) none
    some ({ h1 with nodes := m3 },
      { list with first := some node, last := some node, length := list.length + 1 })
  else do
    let m2 ← setNext h1.nodes list.last (some node)
    let m3 ← setPrev m2 (some node) list.last
    let m4 ← setNext m3 (some node) none
    some ({ h1 with nodes := m4 },
      { list with last := some node, length := list.length + 1 })

/-- list.c, lines 71-75: `listCurrent`. -/
def listCurrent (h : Heap) (iter : list_iter_t) : Option Ptr :=
  if iter.started = true ∧ iter.current ≠ none then do
    let n ← deref h.nodes iter.current
    some n.data
  else some none

/-- list.c, lines 77-87: `listNext`. -/
def listNext (h : Heap) (iter : list_iter_t) : Option (Ptr × list_iter_t) :=
  if iter.started = false ∧ iter.current ≠ none then do
    let n ← deref h.nodes iter.current
    some (n.data, { iter with started := true })
  else if iter.current ≠ none then do
    let n ← deref h.nodes iter.current
    let iter1 := { iter with current := n.next }
    let r ← listCurrent h iter1
    some (r, iter1)
  else some (none, iter)

/-- list.c, lines 89-99: `listPrev`. -/
def listPrev (h : Heap) (iter : list_iter_t) : Option (Ptr × list_iter_t) :=
  if iter.started = false ∧ iter.current ≠ none then do
    let n ← deref h.nodes iter.current
    some (n.data, { iter with started := true })
  else if iter.current ≠ none then do
    let n ← deref h.nodes iter.current
    let iter1 := { iter with current := n.prev }
    let r ← listCurrent h iter1
    some (r, iter1)
  else some (none, iter)

/-- list.c, lines 101-103: `listFirst`. -/
def listFirst (h : Heap) (list : list_t) : Option Ptr := do
  let n ← deref h.nodes list.first
  some n.data

/-- list.c, lines 105-107: `listLast`. -/
def listLast (h : Heap) (list : list_t) : Option Ptr := do
  let n ← deref h.nodes list.last
  some n.data

/-- list.c, lines 109-125: `listPop`. -/
def listPop (h : Heap) (list : list_t) : Option (Ptr × Heap × list_t) :=
  let last := list.last
  if last = none then some (none, h, list)
  else do
    let (m1, list1) ←
      if list.first = list.last then
        some (h.nodes, { list with first := none, last := none })
      else do
        let ln ← deref h.nodes last
        let list1 := { list with last := ln.prev }
        let pn ← deref h.nodes last
        let m1 ← setNext h.nodes pn.prev none
        some (m1, list1)
    let ln ← deref m1 last
    let data := ln.data
    let m2 ← free m1 last
    some (data, { h with nodes := m2 }, { list1 with length := list1.length - 1 })

/-- list.c, lines 127-145: `listPoll`. -/
def listPoll (h : Heap) (list : list_t) : Option (Ptr × Heap × list_t) :=
  let first := list.first
  if first = none then some (none, h, list)
  else do
    let (m1, list1) ←
      if list.first = list.last then
        some (h.nodes, { list with first := none, last := none })
      else do
        let fn ← deref h.nodes first
        let list1 := { list with first := fn.next }
        let nn ← deref h.nodes first
        let m1 ← setPrev h.nodes nn.next none
        some (m1, list1)
    let fn ← deref m1 first
    let data := fn.data
    let m2 ← free m1 first
    some (data, { h with nodes := m2 }, { list1 with length := list1.length - 1 })

/-- list.c, lines 147-155: `listRemove`; `list->destructor` is `free`. -/
def listRemove (h : Heap) (list : list_t) (whichEnd : Nat) : Option (Heap × list_t) :=
  if whichEnd = FRONT then do
    let (data, h1, list1) ← listPoll h list
    let b ← free h1.blobs data
    some ({ h1 with blobs := b }, list1)
  else if whichEnd = BACK then do
    let (data, h1, list1) ← listPop h list
    let b ← free h1.blobs data
    some ({ h1 with blobs := b }, list1)
  else some (h, list)

/-- list.c, lines 169-198: `listInsert`. -/
def listInsert (h : Heap) (list : list_t) (before : Ptr) (data : List Nat) (size : Nat) :
    Option (Heap × list_t) :=
  if list.first = none then listAdd h list data size
  else if before = list.last then listAdd h list data size
  else if before = none then do
    let (node, h1) ← newNode h data size
    let m2 ← setNext h1.nodes (some node) list.first
    let m3 ← setPrev m2 (some node) none
    let nn ← deref m3 (some node)
    let m4 ← setPrev m3 nn.next (some node)
    some ({ h1 with nodes := m4 },
      { list with first := some node, length := list.length + 1 })
  else do
    let (node, h1) ← newNode h data size
    let bn ← deref h1.nodes before
    let m2 ← setNext h1.nodes (some node) bn.next
    let m3 ← setPrev m2 (some node) before
    let m4 ← setNext m3 before (some node)
    let nn ← deref m4 (some node)
    let m5 ← setPrev m4 nn.next (some node)
    some ({ h1 with nodes := m5 }, { list with length := list.length + 1 })

/-- list.c, lines 200-225: `listPluck`. -/
def listPluck (h : Heap) (list : list_t) (removed : Ptr) : Option (Ptr × Heap × list_t) :=
  if removed = none then some (none, h, list)
  else do
    let (m1, list1) ←
      if list.first = removed ∧ list.last = removed then
        some (h.nodes, { list with first := none, last := none })
      else if list.first = removed then do
        let rn ← deref h.nodes removed
        let list1 := { list with first := rn.next }
        let rn1 ← deref h.nodes removed
        let m1 ← setPrev h.nodes rn1.next none
        some (m1, list1)
      else if list.last = removed then do
        let rn ← deref h.nodes removed
        let list1 := { list with last := rn.prev }
        let rn1 ← deref h.nodes removed
        let m1 ← setNext h.nodes rn1.prev none
        some (m1, list1)
      else do
        let rn ← deref h.nodes removed
        let m1 ← setNext h.nodes rn.prev rn.next
        let rn1 ← deref m1 removed
        let m2 ← setPrev m1 rn1.next rn1.prev
        some (m2, list)
    let rn ← deref m1 removed
    let data := rn.data
    let m2 ← free m1 removed
    some (data, { h with nodes := m2 }, { list1 with length := list1.length - 1 })

/-! ## Specification vocabulary -/

/-- A list item as the proofs see it: the address of its node, the address of
its data buffer, and the bytes stored in that buffer. -/
structure Cell where
  addr : Nat
  buf : Nat
  bytes : List Nat
deriving DecidableEq, Repr

/-- Address of the first cell, `dflt` for no cell. -/
def headPtr : List Cell → Ptr → Ptr
  | [], dflt => dflt
  | c :: _, _ => some c.addr

/-- Address of the last cell, `dflt` for no cell. -/
def lastPtr : List Cell → Ptr → Ptr
  | [], dflt => dflt
  | c :: cs, _ => lastPtr cs (some c.addr)

/-- The nodes of `cells` form a doubly linked segment in the node heap `m`:
the first node's `prev` is `prev`, the last node's `next` is `nxt`, and
neighbours point at each other. -/
def Seg (m : List (Option linked_node_t)) : Ptr → List Cell → Ptr → Prop
  | _, [], _ => True
  | prev, c :: cs, nxt =>
    deref m (some c.addr) = some ⟨some c.buf, headPtr cs nxt, prev⟩ ∧
      Seg m (some c.addr) cs nxt

/-- Every cell's buffer is live and holds the cell's bytes. -/
def Bufs (b : List (Option (List Nat))) (cells : List Cell) : Prop :=
  ∀ c ∈ cells, deref b (some c.buf) = some c.bytes

/-- Well-formedness of a list, with the items it holds made explicit: the heap
and header `list` represent the sequence `cells`. -/
def Represents (h : Heap) (list : list_t) (cells : List Cell) : Prop :=
  Seg h.nodes none cells none ∧ Bufs h.blobs cells ∧
    list.first = headPtr cells none ∧ list.last = lastPtr cells none ∧
    list.length = (cells.length : Int) ∧
    (cells.map Cell.addr).Nodup ∧ (cells.map Cell.buf).Nodup

/-- A well-formed list: a NULL-terminated doubly linked chain of distinct live
nodes from `first` to `last`, each owning a distinct live buffer, with
`length` the number of nodes. -/
def WellFormed (h : Heap) (list : list_t) : Prop :=
  ∃ cells, Represents h list cells

/-- Follow `next` from `p` to `NULL`, collecting the node addresses; `none` on a
dereference that fails or when more than `fuel` nodes are met. -/
def walkNext (m : List (Option linked_node_t)) : Nat → Ptr → Option (List Nat)
  | _, none => some []
  | 0, some _ => none
  | fuel + 1, some a => do
    let n ← deref m (some a)
    let rest ← walkNext m fuel n.next
    some (a :: rest)

/-- Follow `prev` from `p` to `NULL`, collecting the node addresses. -/
def walkPrev (m : List (Option linked_node_t)) : Nat → Ptr → Option (List Nat)
  | _, none => some []
  | 0, some _ => none
  | fuel + 1, some a => do
    let n ← deref m (some a)
    let rest ← walkPrev m fuel n.prev
    some (a :: rest)

/-- The nodes reachable from `first` by following `next`.  A chain of distinct
live nodes has at most `h.nodes.length` members, which is the fuel. -/
def forwardNodes (h : Heap) (list : list_t) : Option (List Nat) :=
  walkNext h.nodes h.nodes.length list.first

/-- The nodes reachable from `last` by following `prev`. -/
def backwardNodes (h : Heap) (list : list_t) : Option (List Nat) :=
  walkPrev h.nodes h.nodes.length list.last

/-- The bytes a data pointer points to. -/
def bytesAt (h : Heap) (p : Ptr) : Option (List Nat) := deref h.blobs p

/-- The value stored in the node at address `a`. -/
def valueOf (h : Heap) (a : Nat) : Option (List Nat) := do
  let n ← deref h.nodes (some a)
  bytesAt h n.data

/-- The values stored in the nodes at the addresses `ps`, in that order. -/
def valuesAt (h : Heap) : List Nat → Option (List (List Nat))
  | [] => some []
  | a :: ps => do
    let v ← valueOf h a
    let vs ← valuesAt h ps
    some (v :: vs)

/-- The values read from `first` by following `next`. -/
def forwardValues (h : Heap) (list : list_t) : Option (List (List Nat)) := do
  let ps ← forwardNodes h list
  valuesAt h ps

/-- The values read from `last` by following `prev`. -/
def backwardValues (h : Heap) (list : list_t) : Option (List (List Nat)) := do
  let ps ← backwardNodes h list
  valuesAt h ps

/-- The number of nodes reachable from `first` by following `next`. -/
def nodeCount (h : Heap) (list : list_t) : Option Nat :=
  (forwardNodes h list).map List.length

/-- One call of the list interface that changes the list. -/
inductive Op where
  | add (data : List Nat) (size : Nat)
  | insert (before : Ptr) (data : List Nat) (size : Nat)
  | pop
  | poll
  | remove (whichEnd : Nat)
  | pluck (removed : Ptr)
deriving DecidableEq, Repr

/-- The effect of one call on the heap and the list header; the value a call
returns is dropped. -/
def applyOp (h : Heap) (list : list_t) : Op → Option (Heap × list_t)
  | .add data size => listAdd h list data size
  | .insert before data size => listInsert h list before data size
  | .pop => (listPop h list).map Prod.snd
  | .poll => (listPoll h list).map Prod.snd
  | .remove whichEnd => listRemove h list whichEnd
  | .pluck removed => (listPluck h list removed).map Prod.snd

/-- The effect of a sequence of calls, first call first. -/
def runOps (h : Heap) (list : list_t) : List Op → Option (Heap × list_t)
  | [] => some (h, list)
  | op :: ops =>
    match applyOp h list op with
    | none => none
    | some (h1, list1) => runOps h1 list1 ops

/-- The node at address `a` is one of the nodes of the list. -/
def isNodeOf (h : Heap) (list : list_t) (a : Nat) : Bool :=
  match forwardNodes h list with
  | none => false
  | some ps => decide (a ∈ ps)

/-- A node argument is acceptable when it is `NULL` or a node of the list. -/
def nodeArgOk (h : Heap) (list : list_t) : Ptr → Bool
  | none => true
  | some a => isNodeOf h list a

/-- The caller's side of a call: the source buffer holds at least `size` bytes
and a node argument is `NULL` or a node of the list. -/
def argOk (h : Heap) (list : list_t) : Op → Bool
  | .add data size => decide (size ≤ data.length)
  | .insert before data size => decide (size ≤ data.length) && nodeArgOk h list before
  | .pluck removed => nodeArgOk h list removed
  | _ => true

/-- Every call of the sequence has acceptable arguments in the state it is
made in.  Nothing is asked of the calls after one that fails. -/
def traceOk (h : Heap) (list : list_t) : List Op → Bool
  | [] => true
  | op :: ops =>
    argOk h list op &&
      (match applyOp h list op with
       | none => true
       | some (h1, list1) => traceOk h1 list1 ops)

/-- A call of `listAdd` (with enough source bytes), `listPop` or `listPoll`. -/
def isQueueCall : Op → Bool
  | .add data size => decide (size ≤ data.length)
  | .pop => true
  | .poll => true
  | _ => false

/-- Append the values `xs` in order, each with its full size. -/
def addAll (h : Heap) (list : list_t) : List (List Nat) → Option (Heap × list_t)
  | [] => some (h, list)
  | x :: xs =>
    match listAdd h list x x.length with
    | none => none
    | some (h1, list1) => addAll h1 list1 xs

/-- Call `f` (a `listPop` or `listPoll`) `n` times in a row; the returned
pointers are collected in call order. -/
def takeN (f : Heap → list_t → Option (Ptr × Heap × list_t)) (h : Heap) (list : list_t) :
    Nat → Option (List Ptr × Heap × list_t)
  | 0 => some ([], h, list)
  | n + 1 =>
    match f h list with
    | none => none
    | some (p, h1, list1) =>
      match takeN f h1 list1 n with
      | none => none
      | some (ps, h2, list2) => some (p :: ps, h2, list2)

/-- Call `step` (a `listNext` or `listPrev`) `k` times in a row on a cursor;
the returned pointers are collected in call order. -/
def iterN (step : Heap → list_iter_t → Option (Ptr × list_iter_t)) (h : Heap) :
    Nat → list_iter_t → Option (List Ptr × list_iter_t)
  | 0, iter => some ([], iter)
  | k + 1, iter =>
    match step h iter with
    | none => none
    | some (r, iter1) =>
      match iterN step h k iter1 with
      | none => none
      | some (rs, iter2) => some (r :: rs, iter2)

/-- The common shape of `listNext` and `listPrev`, with the link that is
followed as a parameter. -/
def advanceWith (succ : linked_node_t → Ptr) (h : Heap) (iter : list_iter_t) :
    Option (Ptr × list_iter_t) :=
  if iter.started = false ∧ iter.current ≠ none then do
    let n ← deref h.nodes iter.current
    some (n.data, { iter with started := true })
  else if iter.current ≠ none then do
    let n ← deref h.nodes iter.current
    let iter1 := { iter with current := succ n }
    let r ← listCurrent h iter1
    some (r, iter1)
  else some (none, iter)

/-- The nodes of `cells` are live, carry the cells' buffers, and each one's
`succ` link is the next cell of the list (`NULL` for the last one). -/
def Chain (succ : linked_node_t → Ptr) (m : List (Option linked_node_t)) :
    List Cell → Prop
  | [] => True
  | c :: cs =>
    (∃ n, deref m (some c.addr) = some n ∧ n.data = some c.buf ∧ succ n = headPtr cs none) ∧
      Chain succ m cs

/-- The heap of a sample list holding `[1]`, `[2, 2]`, `[3]`. -/
def demoHeap : Heap :=
  { nodes := [some ⟨some 0, some 1, none⟩, some ⟨some 1, some 2, some 0⟩,
      some ⟨some 2, none, some 1⟩],
    blobs := [some [1], some [2, 2], some [3]] }

/-- The header of the sample list. -/
def demoList : list_t := { length := 3, first := some 0, last := some 2 }

/-- The items of the sample list. -/
def demoCells : List Cell := [⟨0, 0, [1]⟩, ⟨1, 1, [2, 2]⟩, ⟨2, 2, [3]⟩]

/-- Neighbouring nodes of the list point at each other: for every node `n` of
the list, `n.next.prev = n` and `n.prev.next = n` where those neighbours exist,
`first.prev = NULL` and `last.next = NULL`. -/
def LinksSymmetric (h : Heap) (list : list_t) : Prop :=
  (∀ a n, isNodeOf h list a = true → deref h.nodes (some a) = some n →
    (∀ b, n.next = some b → ∃ nb, deref h.nodes (some b) = some nb ∧ nb.prev = some a) ∧
    (∀ b, n.prev = some b → ∃ nb, deref h.nodes (some b) = some nb ∧ nb.next = some a)) ∧
  (∀ a, list.first = some a → ∃ n, deref h.nodes (some a) = some n ∧ n.prev = none) ∧
  (∀ a, list.last = some a → ∃ n, deref h.nodes (some a) = some n ∧ n.next = none)

/-- The count of nodes and the header agree: `length` is the number of nodes
reachable from `first` along `next`, and `first` is `NULL` iff `last` is `NULL`
iff `length` is 0. -/
def CountsAgree (h : Heap) (list : list_t) : Prop :=
  ∃ n : Nat, nodeCount h list = some n ∧ list.length = (n : Int) ∧
    (list.first = none ↔ list.last = none) ∧ (list.last = none ↔ list.length = 0)

/-! ## event_handler.c

A function pointer is the address of a routine (`none` is `NULL`); the routines
of the program are given by a table from addresses to their behaviour.  A
handler `struct` is passed and returned as a value. -/

/-- event_types.h, line 32: `typedef uint32_t eventDispatchingRoutine(void* me,
void* args)`.  A routine is modelled by the status it returns. -/
abbrev eventDispatchingRoutine := Ptr → Ptr → Nat

/-- The routines of the program by address; `none` where no routine is defined. -/
abbrev Routines := Nat → Option eventDispatchingRoutine

/-- The `struct _event_handler_t` of event_handler.c, lines 10-14. -/
structure event_handler_t where
  func : Ptr
  prio : Nat
  data : Ptr
deriving DecidableEq, Repr

/-- The record of one call of a routine: which routine, with which arguments. -/
structure Invocation where
  routine : Nat
  me : Ptr
  args : Ptr
deriving DecidableEq, Repr

/-- event_handler.c, lines 17-21: `eventHandlerCreate`; `prio` is a `uint16_t`. -/
def eventHandlerCreate (hnd : event_handler_t) (prio : Nat) (func data : Ptr) :
    event_handler_t :=
  { hnd with func := func, prio := prio % 65536, data := data }

/-- event_handler.c, lines 23-27: `eventHandlerDestroy`; the priority becomes
`(uint16_t)-1`. -/
def eventHandlerDestroy (hnd : event_handler_t) : event_handler_t :=
  { hnd with func := none, prio := ((-1 : Int) % 65536).toNat, data := none }

/-- event_handler.c, lines 29-31: the priority getter, spelled
`wventHandlerGetPrio` in the source. -/
def wventHandlerGetPrio (hnd : event_handler_t) : Nat := hnd.prio

/-- event_handler.c, lines 33-35: `execute`, whose body is
`return func(hnd->data, args);`.  The callee is the identifier `func`, not the
field `hnd->func`; no `func` is declared in the file, so the identifier names a
routine defined elsewhere, at the address `funcSym`.  The result is the status
(a `uint32_t`) and the calls made; `none` when there is no such routine. -/
def execute (code : Routines) (funcSym : Nat) (hnd : event_handler_t) (args : Ptr) :
    Option (Nat × List Invocation) :=
  match code funcSym with
  | none => none
  | some f => some (f hnd.data args % 4294967296, [⟨funcSym, hnd.data, args⟩])

/-- What event_handler.h, lines 33-38, documents for the execute call ("executes
its dispatching function"): one call of the handler's own routine `hnd->func`
with `(hnd->data, args)`, whose status is returned. -/
def executeDocumented (code : Routines) (hnd : event_handler_t) (args : Ptr) :
    Option (Nat × List Invocation) :=
  match hnd.func with
  | none => none
  | some a =>
    match code a with
    | none => none
    | some f => some (f hnd.data args % 4294967296, [⟨a, hnd.data, args⟩])

/-- event_handler.c, lines 37-41: `eventHandlerAttach`. -/
def eventHandlerAttach (hnd : event_handler_t) (funct : Ptr) : event_handler_t :=
  if funct ≠ none then { hnd with func := funct } else hnd

/-- A sample program: the routine at address 0 returns 0, the routine at address
1 returns 7, and there is no other routine. -/
def demoCode : Routines := fun a =>
  if a = 0 then some (fun _ _ => 0) else if a = 1 then some (fun _ _ => 7) else none

/-- A sample handler: priority 3, routine at address 1, context at address 5. -/
def demoHandler : event_handler_t :=
  eventHandlerCreate ⟨none, 0, none⟩ 3 (some 1) (some 5)

/-! ## The scheduler

The implementation of the class `EventFramework` declared in
event_framework.h, and of the events declared in event.h, is not among the
sources.  What follows is modelled from the specification; the declarations
that are in the headers (`void` results, an 8-bit `nesting` counter) are kept. -/

/-- Modelled from the spec: the event template `{priority, subscribers}` of the
data model (the implementation of event.h is missing).  `id` stands for the
address of the event, the base reference of its published instances. -/
structure Event where
  id : Nat
  prio : Nat
  subscribers : List event_handler_t
deriving DecidableEq, Repr

/-- Modelled from the spec: a published instance `{base, payload}` in the
pending queue (the implementation is missing); `seq` is the publish sequence
number of the order `(priority, sequence number)`. -/
structure EventInstance where
  base : Event
  payload : Ptr
  seq : Nat
deriving DecidableEq, Repr

/-- Modelled from the spec: one call of a user-supplied critical-section
callback `{lock, unlock, resume}` (the calling code is missing). -/
inductive Callback where
  | lock
  | unlock
  | resume
deriving DecidableEq, Repr

/-- Modelled from the spec: the scheduler state of the data model (the
implementation of `EventFramework` is missing): registry, pending queue,
priority in process, event in process, nesting depth, policy.  `nesting` is
the `uint8_t nesting` of event_framework.h, line 200.  `nextSeq` numbers the
publishes and `calls` records the callback calls made so far. -/
structure Scheduler where
  registered : List Event
  pending : List EventInstance
  currentPriority : Nat
  inProcess : Option Event
  nesting : Nat
  policy : Nat
  nextSeq : Nat
  calls : List Callback
deriving DecidableEq, Repr

/-- Modelled from the spec: the outcomes of the error taxonomy (no such values
are declared in the sources). -/
inductive Outcome where
  | AllocationFailure
  | PublishUnregisteredEvent
  | HandlerDispatchError
  | EmptyCursorRead
deriving DecidableEq, Repr

/-- Modelled from the spec: what a call hands back to its caller (the callers
are missing).  event_framework.h declares `PublishEvent`, `Schedule`,
`SaveContext` and `RestoreContext` as `void`. -/
inductive Returned where
  | void
  | status (outcome : Outcome)
deriving DecidableEq, Repr

/-- Modelled from the spec: the status a publish of an event that was never
registered is said to return. -/
def PublishUnregisteredEvent : Returned := Returned.status Outcome.PublishUnregisteredEvent

/-- Modelled from the spec: insertion into the pending queue "preserving
priority order with FIFO tie-break" (the implementation `AddPendingEvent` is
missing): the instance goes before the first queued instance of numerically
greater priority, hence after every instance of the same priority. -/
def insertPending (x : EventInstance) : List EventInstance → List EventInstance
  | [] => [x]
  | y :: ys =>
    if x.base.prio < y.base.prio then x :: y :: ys else y :: insertPending x ys

/-- Modelled from the spec: `publish(ev, payload)` (the body of `PublishEvent`
is missing).  An event that is not in the registry is dropped and the queue is
left alone; a registered one is stamped and inserted in priority order; nothing
is dispatched here.  The method is declared `void` in event_framework.h, line
139, so the caller is handed no value. -/
def PublishEvent (s : Scheduler) (evt : Event) (args : Ptr) : Returned × Scheduler :=
  if evt ∈ s.registered then
    (Returned.void,
      { s with pending := insertPending ⟨evt, args, s.nextSeq⟩ s.pending,
               nextSeq := s.nextSeq + 1 })
  else (Returned.void, s)

/-- Publish the events of a list in order. -/
def publishAll (s : Scheduler) : List (Event × Ptr) → Scheduler
  | [] => s
  | e :: es => publishAll (PublishEvent s e.1 e.2).2 es

/-- The instances a sequence of publishes creates, numbered from `n`. -/
def stamp : Nat → List (Event × Ptr) → List EventInstance
  | _, [] => []
  | n, e :: es => ⟨e.1, e.2, n⟩ :: stamp (n + 1) es

/-- One dispatch: the instance and what `execute` gave for each subscriber of
its base event, front to back. -/
structure Dispatch where
  item : EventInstance
  results : List (Option (Nat × List Invocation))
deriving DecidableEq, Repr

/-- Modelled from the spec: one call of `schedule()` under the shared dispatch
algorithm (the body of `Schedule` is missing): pop the pending instance of
lowest numeric priority, which is the head of the queue, call `execute` with the
payload on every subscriber of its base front to back, recording the statuses
only, then clear the event in process and keep the previous priority.  Routines
are pure here, so a handler does not publish while it runs. -/
def Schedule (code : Routines) (funcSym : Nat) (s : Scheduler) :
    Option Dispatch × Scheduler :=
  match s.pending with
  | [] => (none, s)
  | x :: rest =>
    (some ⟨x, x.base.subscribers.map (fun hnd => execute code funcSym hnd x.payload)⟩,
      { s with pending := rest, inProcess := none })

/-- Modelled from the spec: draining the pending queue by calling `schedule()`
from the foreground loop, at most `fuel` times, until the queue is empty. -/
def drain (code : Routines) (funcSym : Nat) : Nat → Scheduler → List Dispatch × Scheduler
  | 0, s => ([], s)
  | fuel + 1, s =>
    match Schedule code funcSym s with
    | (none, s1) => ([], s1)
    | (some d, s1) => ((d :: (drain code funcSym fuel s1).1), (drain code funcSym fuel s1).2)

/-- The dispatch order: numerically smaller priority first, and for equal
priority the earlier publish first. -/
def dispatchesBefore (a b : EventInstance) : Prop :=
  a.base.prio < b.base.prio ∨ (a.base.prio = b.base.prio ∧ a.seq < b.seq)

/-- Modelled from the spec: `saveContext` (the body of `SaveContext` is
missing): increment the nesting depth, an 8-bit counter, and on the 0 to 1
transition call `lock`. -/
def SaveContext (s : Scheduler) : Scheduler :=
  let n := (s.nesting + 1) % 256
  if s.nesting = 0 ∧ n = 1 then { s with nesting := n, calls := s.calls ++ [Callback.lock] }
  else { s with nesting := n }

/-- Modelled from the spec: `restoreContext` (the body of `RestoreContext` is
missing): decrement the nesting depth, an 8-bit counter, and on the 1 to 0
transition call `unlock` and then, if an instance of higher priority
(numerically smaller) than the one in process is pending, `resume`. -/
def RestoreContext (s : Scheduler) : Scheduler :=
  let n := (s.nesting + 255) % 256
  if s.nesting = 1 ∧ n = 0 then
    match s.pending with
    | [] => { s with nesting := n, calls := s.calls ++ [Callback.unlock] }
    | x :: _ =>
      if x.base.prio < s.currentPriority then
        { s with nesting := n, calls := s.calls ++ [Callback.unlock, Callback.resume] }
      else { s with nesting := n, calls := s.calls ++ [Callback.unlock] }
  else { s with nesting := n }

/-- Call `f` (a `SaveContext` or `RestoreContext`) `n` times in a row. -/
def repeatCall (f : Scheduler → Scheduler) : Nat → Scheduler → Scheduler
  | 0, s => s
  | n + 1, s => repeatCall f n (f s)

/-- A sample event of the given priority with no subscriber. -/
def demoEvent (id prio : Nat) : Event := { id := id, prio := prio, subscribers := [] }

/-- A sample scheduler: the events 0, 1, 2, 3 of priorities 5, 1, 3, 2 are
registered, nothing is pending, no interrupt is active. -/
def demoScheduler : Scheduler :=
  { registered := [demoEvent 0 5, demoEvent 1 1, demoEvent 2 3, demoEvent 3 2],
    pending := [], currentPriority := 65535, inProcess := none, nesting := 0,
    policy := 1, nextSeq := 0, calls := [] }

/-- One call on a cursor. -/
inductive CursorCall where
  | next
  | prev
  | current
deriving DecidableEq, Repr

/-- Make the calls of a list on a cursor, first call first; the returned
pointers are collected in call order. -/
def runCursor (h : Heap) : List CursorCall → list_iter_t → Option (List Ptr × list_iter_t)
  | [], iter => some ([], iter)
  | CursorCall.next :: cs, iter =>
    match listNext h iter with
    | none => none
    | some (r, iter1) =>
      match runCursor h cs iter1 with
      | none => none
      | some (rs, iter2) => some (r :: rs, iter2)
  | CursorCall.prev :: cs, iter =>
    match listPrev h iter with
    | none => none
    | some (r, iter1) =>
      match runCursor h cs iter1 with
      | none => none
      | some (rs, iter2) => some (r :: rs, iter2)
  | CursorCall.current :: cs, iter =>
    match listCurrent h iter with
    | none => none
    | some r =>
      match runCursor h cs iter with
      | none => none
      | some (rs, iter2) => some (r :: rs, iter2)

/-! ## Heap lemmas -/

theorem deref_lt {α : Type} {m : List (Option α)} {a : Nat} {x : α}
    (h : deref m (some a) = some x) : a < m.length := by
  by_contra hc
  have : m[a]? = none := List.getElem?_eq_none (by omega)
  simp [deref, this] at h

theorem deref_set {α : Type} (m : List (Option α)) (a b : Nat) (y : Option α)
    (h : a < m.length) :
    deref (m.set a y) (some b) = if b = a then y else deref m (some b) := by
  unfold deref
  by_cases hb : b = a
  · subst hb
    simp [h]
  · have : a ≠ b := fun e => hb e.symm
    simp [hb, List.getElem?_set_ne this]

theorem deref_malloc {α : Type} (m : List (Option α)) (x : α) (b : Nat) :
    deref (malloc m x) (some b) = if b = m.length then some x else deref m (some b) := by
  unfold deref malloc
  by_cases hb : b = m.length
  · subst hb
    simp
  · simp only [hb, if_false]
    rcases Nat.lt_or_gt_of_ne hb with h1 | h1
    · rw [List.getElem?_append_left h1]
    · rw [List.getElem?_eq_none (by simp; omega), List.getElem?_eq_none (by omega)]

/-! ## Segments -/

theorem headPtr_append (xs ys : List Cell) (d : Ptr) :
    headPtr (xs ++ ys) d = headPtr xs (headPtr ys d) := by
  cases xs <;> simp [headPtr]

theorem lastPtr_append (xs ys : List Cell) (d : Ptr) :
    lastPtr (xs ++ ys) d = lastPtr ys (lastPtr xs d) := by
  induction xs generalizing d with
  | nil => simp [lastPtr]
  | cons c cs ih => simp [lastPtr, ih]

theorem Seg_nil (m : List (Option linked_node_t)) (prev nxt : Ptr) :
    Seg m prev [] nxt ↔ True := Iff.rfl

theorem Seg_cons (m : List (Option linked_node_t)) (prev nxt : Ptr) (c : Cell)
    (cs : List Cell) :
    Seg m prev (c :: cs) nxt ↔
      deref m (some c.addr) = some ⟨some c.buf, headPtr cs nxt, prev⟩ ∧
        Seg m (some c.addr) cs nxt := Iff.rfl

theorem Seg_congr {m m' : List (Option linked_node_t)} {cells : List Cell} {prev nxt : Ptr}
    (hm : ∀ c ∈ cells, deref m' (some c.addr) = deref m (some c.addr))
    (hs : Seg m prev cells nxt) : Seg m' prev cells nxt := by
  induction cells generalizing prev with
  | nil => trivial
  | cons c cs ih =>
    obtain ⟨h1, h2⟩ := hs
    refine ⟨?_, ih (fun d hd => hm d (List.mem_cons_of_mem _ hd)) h2⟩
    rw [hm c (List.mem_cons_self _ _)]
    exact h1

theorem Seg_append {m : List (Option linked_node_t)} (xs ys : List Cell) (prev nxt : Ptr) :
    Seg m prev (xs ++ ys) nxt ↔
      Seg m prev xs (headPtr ys nxt) ∧ Seg m (lastPtr xs prev) ys nxt := by
  induction xs generalizing prev with
  | nil => simp [Seg_nil, lastPtr]
  | cons c cs ih =>
    rw [List.cons_append, Seg_cons, Seg_cons, ih, headPtr_append]
    simp only [lastPtr]
    tauto

theorem Seg_addr_lt {m : List (Option linked_node_t)} {cells : List Cell} {prev nxt : Ptr}
    (hs : Seg m prev cells nxt) : ∀ c ∈ cells, c.addr < m.length := by
  induction cells generalizing prev with
  | nil => simp
  | cons c cs ih =>
    obtain ⟨h1, h2⟩ := hs
    intro d hd
    rcases List.mem_cons.1 hd with rfl | hd
    · exact deref_lt h1
    · exact ih h2 d hd

theorem deref_set_ne {α : Type} (m : List (Option α)) (a b : Nat) (y : Option α)
    (h : b ≠ a) : deref (m.set a y) (some b) = deref m (some b) := by
  simp only [deref]
  rw [List.getElem?_set_ne (fun e => h e.symm)]

theorem length_malloc {α : Type} (m : List (Option α)) (x : α) :
    (malloc m x).length = m.length + 1 := by
  simp [malloc]

theorem Seg_set_frame {m : List (Option linked_node_t)} {cells : List Cell} {prev nxt : Ptr}
    (a : Nat) (y : Option linked_node_t) (ha : a ∉ cells.map Cell.addr)
    (hs : Seg m prev cells nxt) : Seg (m.set a y) prev cells nxt := by
  refine Seg_congr (fun c hc => ?_) hs
  apply deref_set_ne
  intro e
  exact ha (e ▸ List.mem_map_of_mem _ hc)

theorem Seg_malloc {m : List (Option linked_node_t)} {cells : List Cell} {prev nxt : Ptr}
    (x : linked_node_t) (hs : Seg m prev cells nxt) : Seg (malloc m x) prev cells nxt := by
  refine Seg_congr (fun c hc => ?_) hs
  rw [deref_malloc, if_neg]
  exact Nat.ne_of_lt (Seg_addr_lt hs c hc)

theorem Seg_last {m : List (Option linked_node_t)} {ys : List Cell} {b : Cell}
    {prev nxt : Ptr} (hs : Seg m prev (ys ++ [b]) nxt) :
    deref m (some b.addr) = some ⟨some b.buf, nxt, lastPtr ys prev⟩ := by
  rw [Seg_append] at hs
  exact hs.2.1

theorem Seg_setNext_last {m : List (Option linked_node_t)} {ys : List Cell} {b : Cell}
    {prev nxt : Ptr} (v : Ptr) (hs : Seg m prev (ys ++ [b]) nxt)
    (hnd : ((ys ++ [b]).map Cell.addr).Nodup) :
    Seg (m.set b.addr (some ⟨some b.buf, v, lastPtr ys prev⟩)) prev (ys ++ [b]) v := by
  have hb := deref_lt (Seg_last hs)
  rw [Seg_append] at hs ⊢
  refine ⟨Seg_set_frame _ _ ?_ hs.1, ?_, trivial⟩
  · intro hmem
    rw [List.map_append, List.nodup_append] at hnd
    exact hnd.2.2 hmem (by simp)
  · rw [deref_set _ _ _ _ hb, if_pos rfl]
    rfl

theorem Seg_setPrev_first {m : List (Option linked_node_t)} {ys : List Cell} {b : Cell}
    {prev nxt : Ptr} (v : Ptr) (hs : Seg m prev (b :: ys) nxt)
    (hnd : ((b :: ys).map Cell.addr).Nodup) :
    Seg (m.set b.addr (some ⟨some b.buf, headPtr ys nxt, v⟩)) v (b :: ys) nxt := by
  have hb := deref_lt hs.1
  refine ⟨?_, Seg_set_frame _ _ ?_ hs.2⟩
  · rw [deref_set _ _ _ _ hb, if_pos rfl]
  · rw [List.map_cons, List.nodup_cons] at hnd
    exact hnd.1

theorem Bufs_malloc {b : List (Option (List Nat))} {cells : List Cell} (x : List Nat)
    (hb : Bufs b cells) : Bufs (malloc b x) cells := by
  intro c hc
  rw [deref_malloc, if_neg]
  · exact hb c hc
  · exact Nat.ne_of_lt (deref_lt (hb c hc))

theorem Bufs_append {b : List (Option (List Nat))} (xs ys : List Cell) :
    Bufs b (xs ++ ys) ↔ Bufs b xs ∧ Bufs b ys := by
  simp only [Bufs, List.mem_append]
  constructor
  · intro h
    exact ⟨fun c hc => h c (Or.inl hc), fun c hc => h c (Or.inr hc)⟩
  · rintro ⟨h1, h2⟩ c (hc | hc)
    · exact h1 c hc
    · exact h2 c hc

theorem nil_or_snoc {α : Type} (l : List α) : l = [] ∨ ∃ ys b, l = ys ++ [b] := by
  induction l using List.reverseRecOn with
  | nil => exact Or.inl rfl
  | append_singleton ys b _ => exact Or.inr ⟨ys, b, rfl⟩

theorem newNode_eq (h : Heap) (data : List Nat) (size : Nat) (hsz : size ≤ data.length) :
    newNode h data size = some (h.nodes.length,
      { nodes := (malloc h.nodes freshNode).set h.nodes.length
          (some ⟨some h.blobs.length, none, none⟩),
        blobs := malloc h.blobs (data.take size) }) := by
  simp [newNode, hsz, setData, modify, deref_malloc, mallocAddr, freshNode]

theorem Represents_nil_iff (h : Heap) (list : list_t) :
    Represents h list [] ↔ list = ⟨0, none, none⟩ := by
  cases list
  simp [Represents, Seg_nil, Bufs, headPtr, lastPtr]
  tauto

theorem listAdd_repr {h : Heap} {list : list_t} {cells : List Cell} (data : List Nat)
    (size : Nat) (hr : Represents h list cells) (hsz : size ≤ data.length) :
    ∃ h' list', listAdd h list data size = some (h', list') ∧
      Represents h' list' (cells ++ [⟨h.nodes.length, h.blobs.length, data.take size⟩]) := by
  obtain ⟨hseg, hbufs, hfirst, hlast, hlen, hnd, hndb⟩ := hr
  have hfresh : h.nodes.length ∉ cells.map Cell.addr := by
    intro hmem
    obtain ⟨c, hc, e⟩ := List.mem_map.1 hmem
    have := Seg_addr_lt hseg c hc
    omega
  have hfreshb : h.blobs.length ∉ cells.map Cell.buf := by
    intro hmem
    obtain ⟨c, hc, e⟩ := List.mem_map.1 hmem
    have := deref_lt (hbufs c hc)
    omega
  rcases nil_or_snoc cells with rfl | ⟨ys, b, rfl⟩
  · simp only [headPtr] at hfirst
    simp only [List.length_nil, Nat.cast_zero] at hlen
    simp [listAdd, newNode_eq h data size hsz, hfirst, setPrev, setNext, modify,
      deref_set, deref_malloc, length_malloc]
    refine ⟨_, _, ⟨rfl, rfl⟩, ?_⟩
    simp [Represents, Seg_cons, Seg_nil, Bufs, headPtr, lastPtr, deref_set, deref_malloc,
      length_malloc, hlen]
  · have hb := Seg_last hseg
    have hblt := deref_lt hb
    have hne : list.first ≠ none := by
      rw [hfirst, headPtr_append]
      cases ys <;> simp [headPtr]
    have hl : list.last = some b.addr := by
      rw [hlast, lastPtr_append]
      rfl
    have hbne : b.addr ≠ h.nodes.length := Nat.ne_of_lt hblt
    simp [listAdd, newNode_eq h data size hsz, hne, hl, setPrev, setNext, modify,
      deref_set, deref_malloc, length_malloc, hb, hbne, hbne.symm, hblt,
      Nat.lt_succ_of_lt hblt]
    refine ⟨_, _, ⟨rfl, rfl⟩, ?_⟩
    rw [show ys ++ [b, (⟨h.nodes.length, h.blobs.length, data.take size⟩ : Cell)]
      = (ys ++ [b]) ++ [⟨h.nodes.length, h.blobs.length, data.take size⟩] by simp]
    have s0 := Seg_malloc freshNode hseg
    have s1 := Seg_set_frame h.nodes.length
      (some ⟨some h.blobs.length, none, none⟩) hfresh s0
    have s2 := Seg_setNext_last (some h.nodes.length) s1 hnd
    have s3 := Seg_set_frame h.nodes.length
      (some ⟨some h.blobs.length, none, some b.addr⟩) hfresh s2
    refine ⟨?_, ?_, ?_, ?_, ?_, ?_, ?_⟩
    · rw [Seg_append]
      refine ⟨s3, ?_, trivial⟩
      rw [deref_set _ _ _ _ (by simp [length_malloc]), if_pos rfl, lastPtr_append]
      rfl
    · rw [Bufs_append]
      refine ⟨Bufs_malloc _ hbufs, ?_⟩
      intro c hc
      rw [List.mem_singleton] at hc
      subst hc
      simp [deref_malloc]
    · simp only [hfirst, headPtr_append]
      cases ys <;> rfl
    · rw [lastPtr_append]
      rfl
    · simp only [hlen, List.length_append, List.length_singleton]
      push_cast
      ring
    · rw [List.map_append, List.nodup_append]
      refine ⟨hnd, by simp, ?_⟩
      intro a ha hb'
      simp only [List.map_cons, List.map_nil, List.mem_singleton] at hb'
      exact hfresh (hb' ▸ ha)
    · rw [List.map_append, List.nodup_append]
      refine ⟨hndb, by simp, ?_⟩
      intro a ha hb'
      simp only [List.map_cons, List.map_nil, List.mem_singleton] at hb'
      exact hfreshb (hb' ▸ ha)

theorem headPtr_ne_of_nodup {xs : List Cell} {c : Cell} (hx : xs ≠ [])
    (hnd : ((xs ++ [c]).map Cell.addr).Nodup) (d : Ptr) : headPtr xs d ≠ some c.addr := by
  cases xs with
  | nil => exact absurd rfl hx
  | cons x xs =>
    simp only [headPtr]
    intro e
    simp only [List.cons_append, List.map_cons, List.nodup_cons, List.map_append,
      List.mem_append, List.map_nil, List.mem_singleton] at hnd
    exact hnd.1 (Or.inr (Option.some.inj e))

theorem listPop_nil {h : Heap} {list : list_t} (hr : Represents h list []) :
    listPop h list = some (none, h, list) := by
  have hl : list.last = none := hr.2.2.2.1
  simp [listPop, hl]

theorem listPop_repr {h : Heap} {list : list_t} {xs : List Cell} {c : Cell}
    (hr : Represents h list (xs ++ [c])) :
    ∃ h' list', listPop h list = some (some c.buf, h', list') ∧ Represents h' list' xs ∧
      h'.blobs = h.blobs ∧ list'.length = list.length - 1 := by
  obtain ⟨hseg, hbufs, hfirst, hlast, hlen, hnd, hndb⟩ := hr
  have hc := Seg_last hseg
  have hclt := deref_lt hc
  have hl : list.last = some c.addr := by
    rw [hlast, lastPtr_append]
    rfl
  have hndx : (xs.map Cell.addr).Nodup := by
    rw [List.map_append, List.nodup_append] at hnd
    exact hnd.1
  have hcx : c.addr ∉ xs.map Cell.addr := by
    intro hmem
    rw [List.map_append, List.nodup_append] at hnd
    exact hnd.2.2 hmem (by simp)
  have hndbx : (xs.map Cell.buf).Nodup := by
    rw [List.map_append, List.nodup_append] at hndb
    exact hndb.1
  have hlen' : list.length - 1 = (xs.length : Int) := by
    rw [hlen]
    simp
  rcases nil_or_snoc xs with rfl | ⟨ys, b, rfl⟩
  · have hf : list.first = some c.addr := by
      rw [hfirst]
      rfl
    simp [listPop, hl, hf, hc, free]
    refine ⟨_, _, ⟨rfl, rfl⟩, ?_, rfl, rfl⟩
    simp [Represents, Seg_nil, Bufs, headPtr, lastPtr]
    simpa using hlen'
  · have hf : list.first ≠ some c.addr := by
      rw [hfirst, headPtr_append]
      exact headPtr_ne_of_nodup (by simp) hnd _
    have hseg' := (Seg_append _ _ _ _).1 hseg
    have hb := Seg_last hseg'.1
    have hblt := deref_lt hb
    have hbc : c.addr ≠ b.addr := by
      intro e
      apply hcx
      simp [e]
    simp only [lastPtr_append] at hc
    simp only [lastPtr] at hc
    simp [listPop, hl, hf, hc, hb, free, setNext, modify, deref_set, hblt, hbc]
    refine ⟨_, _, ⟨rfl, rfl⟩, ?_, rfl, rfl⟩
    have s1 := Seg_setNext_last none hseg'.1 hndx
    have s2 := Seg_set_frame c.addr none hcx s1
    refine ⟨s2, ((Bufs_append _ _).1 hbufs).1, ?_, ?_, hlen', hndx, hndbx⟩
    · simp only [hfirst, headPtr_append]
      cases ys <;> rfl
    · simp only [lastPtr_append]
      rfl

theorem lastPtr_mem {xs : List Cell} (hx : xs ≠ []) (d : Ptr) :
    ∃ a, lastPtr xs d = some a ∧ a ∈ xs.map Cell.addr := by
  rcases nil_or_snoc xs with rfl | ⟨ys, b, rfl⟩
  · exact absurd rfl hx
  · exact ⟨b.addr, by rw [lastPtr_append]; rfl, by simp⟩

theorem headPtr_mem (xs : List Cell) (hx : xs ≠ []) (d : Ptr) :
    ∃ a, headPtr xs d = some a ∧ a ∈ xs.map Cell.addr := by
  cases xs with
  | nil => exact absurd rfl hx
  | cons x xs => exact ⟨x.addr, rfl, by simp⟩

theorem listPoll_nil {h : Heap} {list : list_t} (hr : Represents h list []) :
    listPoll h list = some (none, h, list) := by
  have hl : list.first = none := hr.2.2.1
  simp [listPoll, hl]

theorem listPoll_repr {h : Heap} {list : list_t} {xs : List Cell} {c : Cell}
    (hr : Represents h list (c :: xs)) :
    ∃ h' list', listPoll h list = some (some c.buf, h', list') ∧ Represents h' list' xs ∧
      h'.blobs = h.blobs ∧ list'.length = list.length - 1 := by
  obtain ⟨hseg, hbufs, hfirst, hlast, hlen, hnd, hndb⟩ := hr
  have hc := hseg.1
  have hclt := deref_lt hc
  have hf : list.first = some c.addr := hfirst
  rw [List.map_cons, List.nodup_cons] at hnd hndb
  have hlen' : list.length - 1 = (xs.length : Int) := by
    rw [hlen]
    simp
  cases xs with
  | nil =>
    have hl : list.last = some c.addr := hlast
    simp [listPoll, hl, hf, hc, free]
    refine ⟨_, _, ⟨rfl, rfl⟩, ?_, rfl, rfl⟩
    simp [Represents, Seg_nil, Bufs, headPtr, lastPtr]
    simpa using hlen'
  | cons b ys =>
    have hl : some c.addr ≠ list.last := by
      rw [hlast]
      obtain ⟨a, ha, hmem⟩ := lastPtr_mem (List.cons_ne_nil b ys) (some c.addr)
      simp only [lastPtr] at ha ⊢
      rw [ha]
      intro e
      exact hnd.1 (Option.some.inj e ▸ hmem)
    have hb := hseg.2.1
    have hblt := deref_lt hb
    have hbc : c.addr ≠ b.addr := by
      intro e
      apply hnd.1
      simp [e]
    simp only [headPtr] at hc
    simp [listPoll, hl, hf, hc, hb, free, setPrev, modify, deref_set, hblt, hbc]
    refine ⟨_, _, ⟨rfl, rfl⟩, ?_, rfl, rfl⟩
    have s1 := Seg_setPrev_first none hseg.2 hnd.2
    have s2 := Seg_set_frame c.addr none hnd.1 s1
    refine ⟨s2, fun d hd => hbufs d (List.mem_cons_of_mem _ hd), rfl, ?_, hlen', hnd.2,
      hndb.2⟩
    rw [hlast]
    rfl

theorem listInsert_nil {h : Heap} {list : list_t} (before : Ptr) (data : List Nat)
    (size : Nat) (hr : Represents h list []) :
    listInsert h list before data size = listAdd h list data size := by
  have hl : list.first = none := hr.2.2.1
  simp [listInsert, hl]

theorem listInsert_last {h : Heap} {list : list_t} {xs : List Cell} {b : Cell}
    (data : List Nat) (size : Nat) (hr : Represents h list (xs ++ [b])) :
    listInsert h list (some b.addr) data size = listAdd h list data size := by
  have hl : list.last = some b.addr := by
    rw [hr.2.2.2.1, lastPtr_append]
    rfl
  simp [listInsert, hl]

theorem Represents_fresh {h : Heap} {list : list_t} {cells : List Cell} (hr : Represents h list cells) :
    h.nodes.length ∉ cells.map Cell.addr ∧ h.blobs.length ∉ cells.map Cell.buf := by
  obtain ⟨hseg, hbufs, -⟩ := hr
  constructor
  · intro hmem
    obtain ⟨c, hc, e⟩ := List.mem_map.1 hmem
    have := Seg_addr_lt hseg c hc
    omega
  · intro hmem
    obtain ⟨c, hc, e⟩ := List.mem_map.1 hmem
    have := deref_lt (hbufs c hc)
    omega

theorem listInsert_front {h : Heap} {list : list_t} {c : Cell} {xs : List Cell}
    (data : List Nat) (size : Nat) (hr : Represents h list (c :: xs)) (hsz : size ≤ data.length) :
    ∃ h' list', listInsert h list none data size = some (h', list') ∧
      Represents h' list' (⟨h.nodes.length, h.blobs.length, data.take size⟩ :: c :: xs) := by
  obtain ⟨hfresh, hfreshb⟩ := Represents_fresh hr
  obtain ⟨hseg, hbufs, hfirst, hlast, hlen, hnd, hndb⟩ := hr
  have hc := hseg.1
  have hclt := deref_lt hc
  have hf : list.first = some c.addr := hfirst
  have hl : list.last ≠ none := by
    rw [hlast]
    obtain ⟨a, ha, -⟩ := lastPtr_mem (List.cons_ne_nil c xs) none
    rw [ha]
    simp
  have hcne : c.addr ≠ h.nodes.length := Nat.ne_of_lt hclt
  simp [listInsert, newNode_eq h data size hsz, hf, hl.symm, setPrev, setNext, modify,
    deref_set, deref_malloc, length_malloc, hc, hcne, hcne.symm, hclt,
    Nat.lt_succ_of_lt hclt]
  refine ⟨_, _, ⟨rfl, rfl⟩, ?_⟩
  have s0 := Seg_malloc freshNode hseg
  have s1 := Seg_set_frame h.nodes.length
    (some ⟨some h.blobs.length, some c.addr, none⟩) hfresh s0
  have s2 := Seg_setPrev_first (some h.nodes.length) s1 hnd
  refine ⟨⟨?_, s2⟩, ?_, rfl, ?_, ?_, ?_, ?_⟩
  · rw [deref_set_ne _ _ _ _ hcne.symm, deref_set _ _ _ _ (by simp [length_malloc]),
      if_pos rfl]
    rfl
  · intro d hd
    rcases List.mem_cons.1 hd with rfl | hd
    · simp [deref_malloc]
    · exact Bufs_malloc _ hbufs d hd
  · rw [hlast]
    rfl
  · simp only [hlen, List.length_cons]
    push_cast
    ring
  · rw [List.map_cons, List.nodup_cons]
    exact ⟨hfresh, hnd⟩
  · rw [List.map_cons, List.nodup_cons]
    exact ⟨hfreshb, hndb⟩

theorem nodup_mid {α : Type} {xs ys : List α} {b : α} (h : (xs ++ b :: ys).Nodup) :
    (xs ++ [b]).Nodup ∧ (b :: ys).Nodup ∧ b ∉ xs ∧ b ∉ ys ∧ (∀ a ∈ xs, a ∉ ys) ∧
      xs.Nodup ∧ ys.Nodup ∧ (xs ++ ys).Nodup := by
  have h1 : (xs ++ [b] ++ ys).Nodup := by simpa using h
  have h2 := List.nodup_append.1 h1
  have h3 := List.nodup_append.1 h
  have h4 := List.nodup_cons.1 h3.2.1
  have h5 := List.nodup_append.1 h2.1
  refine ⟨h2.1, h3.2.1, ?_, h4.1, ?_, h3.1, h4.2, ?_⟩
  · intro hb
    exact h5.2.2 hb (by simp)
  · intro a ha ha'
    exact h3.2.2 ha (List.mem_cons_of_mem _ ha')
  · rw [List.nodup_append]
    refine ⟨h3.1, h4.2, ?_⟩
    intro a ha ha'
    exact h3.2.2 ha (List.mem_cons_of_mem _ ha')

theorem listInsert_mid {h : Heap} {list : list_t} {xs zs : List Cell} {b y : Cell}
    (data : List Nat) (size : Nat) (hr : Represents h list (xs ++ b :: y :: zs))
    (hsz : size ≤ data.length) :
    ∃ h' list', listInsert h list (some b.addr) data size = some (h', list') ∧
      Represents h' list'
        (xs ++ b :: ⟨h.nodes.length, h.blobs.length, data.take size⟩ :: y :: zs) := by
  obtain ⟨hfresh, hfreshb⟩ := Represents_fresh hr
  obtain ⟨hseg, hbufs, hfirst, hlast, hlen, hnd, hndb⟩ := hr
  rw [List.map_append, List.map_cons] at hnd hndb hfresh hfreshb
  obtain ⟨n1, n2, n3, n4, n5, n6, n7, n8⟩ := nodup_mid hnd
  have hseg' := (Seg_append _ _ _ _).1 hseg
  have hsegA : Seg h.nodes none (xs ++ [b]) (some y.addr) := by
    rw [Seg_append]
    exact ⟨hseg'.1, hseg'.2.1, trivial⟩
  have hsegB : Seg h.nodes (some b.addr) (y :: zs) none := hseg'.2.2
  have hb := Seg_last hsegA
  have hy := hsegB.1
  have hblt := deref_lt hb
  have hylt := deref_lt hy
  have hf : list.first ≠ none := by
    rw [hfirst]
    obtain ⟨a, ha, -⟩ := headPtr_mem (xs ++ b :: y :: zs) (by simp) none
    rw [ha]
    simp
  have hl : some b.addr ≠ list.last := by
    rw [hlast, lastPtr_append]
    obtain ⟨a, ha, hmem⟩ := lastPtr_mem (List.cons_ne_nil y zs) (some b.addr)
    simp only [lastPtr] at ha ⊢
    rw [ha]
    intro e
    exact n4 (Option.some.inj e ▸ hmem)
  have hby : b.addr ≠ y.addr := by
    intro e
    apply n4
    simp [e]
  have hbne : b.addr ≠ h.nodes.length := Nat.ne_of_lt hblt
  have hyne : y.addr ≠ h.nodes.length := Nat.ne_of_lt hylt
  simp [listInsert, newNode_eq h data size hsz, hf, hl, setPrev, setNext, modify,
    deref_set, deref_malloc, length_malloc, hb, hy, hbne, hbne.symm, hyne, hyne.symm, hby,
    hby.symm, hblt, hylt, Nat.lt_succ_of_lt hblt, Nat.lt_succ_of_lt hylt]
  refine ⟨_, _, ⟨rfl, rfl⟩, ?_⟩
  have hfxb : h.nodes.length ∉ (xs ++ [b]).map Cell.addr := by
    intro hm
    apply hfresh
    simp only [List.map_append, List.map_cons, List.map_nil, List.mem_append,
      List.mem_singleton, List.mem_cons] at hm ⊢
    tauto
  have hfyz : h.nodes.length ∉ (y :: zs).map Cell.addr := by
    intro hm
    apply hfresh
    simp only [List.map_cons, List.mem_append, List.mem_cons] at hm ⊢
    tauto
  have hyxb : y.addr ∉ (xs ++ [b]).map Cell.addr := by
    intro hm
    simp only [List.map_append, List.map_cons, List.map_nil, List.mem_append,
      List.mem_singleton] at hm
    rcases hm with hm | hm
    · exact n5 _ hm (by simp)
    · exact hby hm.symm
  have a0 := Seg_malloc freshNode hsegA
  have a1 := Seg_set_frame h.nodes.length
    (some ⟨some h.blobs.length, some y.addr, some b.addr⟩) hfxb a0
  have a2 := Seg_setNext_last (some h.nodes.length) a1 (by simpa using n1)
  have a3 := Seg_set_frame y.addr
    (some ⟨some y.buf, headPtr zs none, some h.nodes.length⟩) hyxb a2
  have b0 := Seg_malloc freshNode hsegB
  have b1 := Seg_set_frame h.nodes.length
    (some ⟨some h.blobs.length, some y.addr, some b.addr⟩) hfyz b0
  have b2 := Seg_set_frame b.addr
    (some ⟨some b.buf, some h.nodes.length, lastPtr xs none⟩) (by simpa using n4) b1
  have b3 := Seg_setPrev_first (some h.nodes.length) b2 (by simpa using n7)
  refine ⟨?_, ?_, ?_, ?_, ?_, ?_, ?_⟩
  · rw [show xs ++ b :: (⟨h.nodes.length, h.blobs.length, data.take size⟩ : Cell) :: y :: zs
      = (xs ++ [b]) ++ (⟨h.nodes.length, h.blobs.length, data.take size⟩ : Cell) :: y :: zs
      by simp, Seg_append]
    refine ⟨a3, ?_, b3⟩
    rw [deref_set_ne _ _ _ _ hyne.symm, deref_set_ne _ _ _ _ hbne.symm,
      deref_set _ _ _ _ (by simp [length_malloc]), if_pos rfl, lastPtr_append]
    rfl
  · intro d hd
    simp only [List.mem_append, List.mem_cons] at hd
    rcases hd with hd | rfl | rfl | hd | hd
    · exact Bufs_malloc _ hbufs d (by simp [hd])
    · exact Bufs_malloc _ hbufs _ (by simp)
    · simp [deref_malloc]
    · exact Bufs_malloc _ hbufs _ (by simp [hd])
    · exact Bufs_malloc _ hbufs d (by simp [hd])
  · simp only [hfirst, headPtr_append]
    rfl
  · simp only [hlast, lastPtr_append]
    rfl
  · simp only [hlen, List.length_append, List.length_cons]
    push_cast
    ring
  · simp only [List.map_append, List.map_cons]
    have : (xs.map Cell.addr ++ b.addr :: h.nodes.length :: y.addr :: zs.map Cell.addr).Perm
        (h.nodes.length :: (xs.map Cell.addr ++ b.addr :: y.addr :: zs.map Cell.addr)) := by
      rw [show xs.map Cell.addr ++ b.addr :: h.nodes.length :: y.addr :: zs.map Cell.addr
        = (xs.map Cell.addr ++ [b.addr]) ++ h.nodes.length :: (y.addr :: zs.map Cell.addr)
        by simp,
        show xs.map Cell.addr ++ b.addr :: y.addr :: zs.map Cell.addr
        = (xs.map Cell.addr ++ [b.addr]) ++ (y.addr :: zs.map Cell.addr) by simp]
      exact List.perm_middle
    rw [this.nodup_iff, List.nodup_cons]
    exact ⟨hfresh, hnd⟩
  · simp only [List.map_append, List.map_cons]
    have : (xs.map Cell.buf ++ b.buf :: h.blobs.length :: y.buf :: zs.map Cell.buf).Perm
        (h.blobs.length :: (xs.map Cell.buf ++ b.buf :: y.buf :: zs.map Cell.buf)) := by
      rw [show xs.map Cell.buf ++ b.buf :: h.blobs.length :: y.buf :: zs.map Cell.buf
        = (xs.map Cell.buf ++ [b.buf]) ++ h.blobs.length :: (y.buf :: zs.map Cell.buf)
        by simp,
        show xs.map Cell.buf ++ b.buf :: y.buf :: zs.map Cell.buf
        = (xs.map Cell.buf ++ [b.buf]) ++ (y.buf :: zs.map Cell.buf) by simp]
      exact List.perm_middle
    rw [this.nodup_iff, List.nodup_cons]
    exact ⟨hfreshb, hndb⟩

theorem listInsert_after {h : Heap} {list : list_t} {xs ys : List Cell} {b : Cell}
    (data : List Nat) (size : Nat) (hr : Represents h list (xs ++ b :: ys))
    (hsz : size ≤ data.length) :
    ∃ h' list', listInsert h list (some b.addr) data size = some (h', list') ∧
      Represents h' list'
        (xs ++ b :: ⟨h.nodes.length, h.blobs.length, data.take size⟩ :: ys) := by
  cases ys with
  | nil =>
    rw [listInsert_last data size hr]
    obtain ⟨h', list', h1, h2⟩ := listAdd_repr data size hr hsz
    exact ⟨h', list', h1, by simpa using h2⟩
  | cons y zs => exact listInsert_mid data size hr hsz

theorem listPluck_null (h : Heap) (list : list_t) :
    listPluck h list none = some (none, h, list) := by
  simp [listPluck]

theorem listPluck_repr {h : Heap} {list : list_t} {xs ys : List Cell} {c : Cell}
    (hr : Represents h list (xs ++ c :: ys)) :
    ∃ h' list', listPluck h list (some c.addr) = some (some c.buf, h', list') ∧
      Represents h' list' (xs ++ ys) ∧ h'.blobs = h.blobs ∧
      list'.length = list.length - 1 := by
  obtain ⟨hseg, hbufs, hfirst, hlast, hlen, hnd, hndb⟩ := hr
  rw [List.map_append, List.map_cons] at hnd hndb
  obtain ⟨n1, n2, n3, n4, n5, n6, n7, n8⟩ := nodup_mid hnd
  obtain ⟨-, -, -, -, -, -, -, nb8⟩ := nodup_mid hndb
  rw [← List.map_append] at n8 nb8
  have hseg' := (Seg_append _ _ _ _).1 hseg
  have hc := hseg'.2.1
  have hclt := deref_lt hc
  have hbufs' : Bufs h.blobs (xs ++ ys) := by
    intro d hd
    apply hbufs d
    simp only [List.mem_append, List.mem_cons] at hd ⊢
    tauto
  have hlen' : list.length - 1 = ((xs ++ ys).length : Int) := by
    rw [hlen]
    simp only [List.length_append, List.length_cons]
    push_cast
    ring
  rcases nil_or_snoc xs with rfl | ⟨ws, b, rfl⟩
  · cases ys with
    | nil =>
      have hf : list.first = some c.addr := hfirst
      have hl : list.last = some c.addr := hlast
      simp only [List.nil_append]
      simp [listPluck, hf, hl, hc, free]
      refine ⟨_, _, ⟨rfl, rfl⟩, ?_, rfl, rfl⟩
      simp [Represents, Seg_nil, Bufs, headPtr, lastPtr]
      simpa using hlen'
    | cons y zs =>
      have hf : list.first = some c.addr := hfirst
      have hl : list.last ≠ some c.addr := by
        rw [hlast]
        obtain ⟨a, ha, hmem⟩ := lastPtr_mem (List.cons_ne_nil y zs) (some c.addr)
        simp only [List.nil_append, lastPtr] at ha ⊢
        rw [ha]
        intro e
        exact n4 (Option.some.inj e ▸ hmem)
      have hy := hseg'.2.2.1
      have hylt := deref_lt hy
      have hcy : c.addr ≠ y.addr := by
        intro e
        apply n4
        simp [e]
      simp only [headPtr, lastPtr] at hc
      simp only [List.nil_append]
      simp [listPluck, hf, hl, hc, hy, free, setPrev, modify, deref_set, hylt, hcy]
      refine ⟨_, _, ⟨rfl, rfl⟩, ?_, rfl, rfl⟩
      have s1 := Seg_setPrev_first none hseg'.2.2 n7
      have s2 := Seg_set_frame c.addr none n4 s1
      refine ⟨s2, hbufs', rfl, ?_, hlen', n8, nb8⟩
      rw [hlast]
      rfl
  · have hf : list.first ≠ some c.addr := by
      rw [hfirst, headPtr_append]
      obtain ⟨a, ha, hmem⟩ := headPtr_mem (ws ++ [b]) (by simp) (headPtr (c :: ys) none)
      rw [ha]
      intro e
      exact n3 (Option.some.inj e ▸ hmem)
    have hb := Seg_last hseg'.1
    have hblt := deref_lt hb
    have hcb : c.addr ≠ b.addr := by
      intro e
      apply n3
      simp [e]
    have hndwb : ((ws ++ [b]).map Cell.addr).Nodup := n6
    simp only [lastPtr_append] at hc
    simp only [lastPtr] at hc
    cases ys with
    | nil =>
      have hl : list.last = some c.addr := by
        rw [hlast, lastPtr_append]
        rfl
      simp only [headPtr] at hc hb
      simp only [List.append_nil]
      simp [listPluck, hf, hl, hc, hb, free, setNext, modify, deref_set, hblt, hcb]
      refine ⟨_, _, ⟨rfl, rfl⟩, ?_, rfl, rfl⟩
      have s1 := Seg_setNext_last none hseg'.1 hndwb
      have s2 := Seg_set_frame c.addr none n3 s1
      simp only [List.append_nil] at hbufs' hlen' n8 nb8
      refine ⟨s2, hbufs', ?_, ?_, hlen', n8, nb8⟩
      · simp only [hfirst, headPtr_append]
        cases ws <;> rfl
      · simp only [lastPtr_append]
        rfl
    | cons y zs =>
      have hl : list.last ≠ some c.addr := by
        rw [hlast, lastPtr_append]
        obtain ⟨a, ha, hmem⟩ := lastPtr_mem (List.cons_ne_nil y zs) (some c.addr)
        simp only [lastPtr] at ha ⊢
        rw [ha]
        intro e
        exact n4 (Option.some.inj e ▸ hmem)
      have hy := hseg'.2.2.1
      have hylt := deref_lt hy
      have hcy : c.addr ≠ y.addr := by
        intro e
        apply n4
        simp [e]
      have hby : b.addr ≠ y.addr := by
        intro e
        apply n5 b.addr (by simp)
        simp [e]
      simp only [headPtr] at hc hb
      simp [listPluck, hf, hl, hc, hb, hy, free, setNext, setPrev, modify, deref_set, hblt,
        hylt, hcb, hcy, hby, hby.symm]
      refine ⟨_, _, ⟨rfl, rfl⟩, ?_, rfl, rfl⟩
      have hywb : y.addr ∉ (ws ++ [b]).map Cell.addr := by
        intro hm
        exact n5 _ hm (by simp)
      have hbyz : b.addr ∉ (y :: zs).map Cell.addr := by
        intro hm
        exact n5 b.addr (by simp) hm
      have a1 := Seg_setNext_last (some y.addr) hseg'.1 hndwb
      have a2 := Seg_set_frame y.addr
        (some ⟨some y.buf, headPtr zs none, some b.addr⟩) hywb a1
      have a3 := Seg_set_frame c.addr none n3 a2
      have b1 := Seg_set_frame b.addr
        (some ⟨some b.buf, some y.addr, lastPtr ws none⟩) hbyz hseg'.2.2
      have b2 := Seg_setPrev_first (some b.addr) b1 n7
      have b3 := Seg_set_frame c.addr none n4 b2
      have e1 : ws ++ b :: y :: zs = (ws ++ [b]) ++ y :: zs := by simp
      rw [e1]
      refine ⟨?_, hbufs', ?_, ?_, hlen', n8, nb8⟩
      · rw [Seg_append]
        refine ⟨a3, ?_⟩
        rw [lastPtr_append]
        exact b3
      · simp only [hfirst, headPtr_append]
        cases ws <;> rfl
      · simp only [hlast, lastPtr_append]
        rfl

/-! ## Walking the chain -/

theorem walkNext_Seg {m : List (Option linked_node_t)} {cells : List Cell} {prev : Ptr}
    (fuel : Nat) (hs : Seg m prev cells none) (hf : cells.length ≤ fuel) :
    walkNext m fuel (headPtr cells none) = some (cells.map Cell.addr) := by
  induction cells generalizing prev fuel with
  | nil => cases fuel <;> rfl
  | cons c cs ih =>
    cases fuel with
    | zero => simp at hf
    | succ fuel =>
      have h1 := ih fuel hs.2 (by simpa using hf)
      show walkNext m (fuel + 1) (some c.addr) = _
      rw [walkNext, hs.1]
      simp [h1]

theorem walkPrev_Seg {m : List (Option linked_node_t)} {cells : List Cell} {nxt : Ptr}
    (fuel : Nat) (hs : Seg m none cells nxt) (hf : cells.length ≤ fuel) :
    walkPrev m fuel (lastPtr cells none) = some (cells.map Cell.addr).reverse := by
  induction cells using List.reverseRecOn generalizing nxt fuel with
  | nil => cases fuel <;> rfl
  | append_singleton ys b ih =>
    cases fuel with
    | zero => simp at hf
    | succ fuel =>
      have hb := Seg_last hs
      have h1 := ih fuel ((Seg_append _ _ _ _).1 hs).1 (by simpa using hf)
      rw [lastPtr_append]
      simp [lastPtr, walkPrev, hb, h1]

theorem length_le_of_nodup_lt {l : List Nat} {n : Nat} (hnd : l.Nodup)
    (hlt : ∀ a ∈ l, a < n) : l.length ≤ n := by
  have hsub : l ⊆ List.range n := fun a ha => List.mem_range.2 (hlt a ha)
  have := (List.subperm_of_subset hnd hsub).length_le
  simpa using this

theorem Represents_length_le {h : Heap} {list : list_t} {cells : List Cell}
    (hr : Represents h list cells) : cells.length ≤ h.nodes.length := by
  obtain ⟨hseg, -, -, -, -, hnd, -⟩ := hr
  have hlt : ∀ a ∈ cells.map Cell.addr, a < h.nodes.length := by
    intro a ha
    obtain ⟨c, hc, rfl⟩ := List.mem_map.1 ha
    exact Seg_addr_lt hseg c hc
  have := length_le_of_nodup_lt hnd hlt
  simpa using this

theorem forwardNodes_repr {h : Heap} {list : list_t} {cells : List Cell}
    (hr : Represents h list cells) : forwardNodes h list = some (cells.map Cell.addr) := by
  have hle := Represents_length_le hr
  obtain ⟨hseg, -, hfirst, -⟩ := hr
  rw [forwardNodes, hfirst]
  exact walkNext_Seg _ hseg hle

theorem backwardNodes_repr {h : Heap} {list : list_t} {cells : List Cell}
    (hr : Represents h list cells) :
    backwardNodes h list = some (cells.map Cell.addr).reverse := by
  have hle := Represents_length_le hr
  obtain ⟨hseg, -, -, hlast, -⟩ := hr
  rw [backwardNodes, hlast]
  exact walkPrev_Seg _ hseg hle

theorem Seg_mem {m : List (Option linked_node_t)} {cells : List Cell} {prev nxt : Ptr}
    (hs : Seg m prev cells nxt) :
    ∀ c ∈ cells, ∃ n, deref m (some c.addr) = some n ∧ n.data = some c.buf := by
  induction cells generalizing prev with
  | nil => simp
  | cons c cs ih =>
    intro d hd
    rcases List.mem_cons.1 hd with rfl | hd
    · exact ⟨_, hs.1, rfl⟩
    · exact ih hs.2 d hd

theorem valueOf_repr {h : Heap} {list : list_t} {cells : List Cell}
    (hr : Represents h list cells) : ∀ c ∈ cells, valueOf h c.addr = some c.bytes := by
  intro c hc
  obtain ⟨n, hn, hd⟩ := Seg_mem hr.1 c hc
  simp [valueOf, hn, hd, bytesAt, hr.2.1 c hc]

theorem valuesAt_repr {h : Heap} {list : list_t} {cells : List Cell}
    (hr : Represents h list cells) (cs : List Cell) (hsub : ∀ c ∈ cs, c ∈ cells) :
    valuesAt h (cs.map Cell.addr) = some (cs.map Cell.bytes) := by
  induction cs with
  | nil => rfl
  | cons c cs ih =>
    have h1 := valueOf_repr hr c (hsub c (List.mem_cons_self _ _))
    have h2 := ih (fun d hd => hsub d (List.mem_cons_of_mem _ hd))
    simp [valuesAt, h1, h2]

theorem forwardValues_repr {h : Heap} {list : list_t} {cells : List Cell}
    (hr : Represents h list cells) : forwardValues h list = some (cells.map Cell.bytes) := by
  simp [forwardValues, forwardNodes_repr hr, valuesAt_repr hr cells (fun _ hc => hc)]

theorem backwardValues_repr {h : Heap} {list : list_t} {cells : List Cell}
    (hr : Represents h list cells) :
    backwardValues h list = some (cells.map Cell.bytes).reverse := by
  have := valuesAt_repr hr cells.reverse (fun _ hc => List.mem_reverse.1 hc)
  simp only [List.map_reverse] at this
  simp [backwardValues, backwardNodes_repr hr, this]

/-! ## Sequences of calls -/

theorem Bufs_free {b : List (Option (List Nat))} {cells : List Cell} (a : Nat)
    (ha : a ∉ cells.map Cell.buf) (hb : Bufs b cells) : Bufs (b.set a none) cells := by
  intro c hc
  rw [deref_set_ne]
  · exact hb c hc
  · intro e
    exact ha (e ▸ List.mem_map_of_mem _ hc)

theorem Represents_blobs {h : Heap} {list : list_t} {cells : List Cell}
    (b : List (Option (List Nat))) (hb : Bufs b cells) (hr : Represents h list cells) :
    Represents { h with blobs := b } list cells :=
  ⟨hr.1, hb, hr.2.2⟩

theorem listRemove_front_repr {h : Heap} {list : list_t} {cells : List Cell}
    (hr : Represents h list cells) :
    ∃ h' list', listRemove h list FRONT = some (h', list') ∧
      Represents h' list' cells.tail := by
  cases cells with
  | nil =>
    refine ⟨h, list, ?_, hr⟩
    simp [listRemove, listPoll_nil hr, free]
  | cons c cs =>
    have hc : deref h.blobs (some c.buf) = some c.bytes := hr.2.1 c (List.mem_cons_self _ _)
    have hnd : c.buf ∉ cs.map Cell.buf := (List.nodup_cons.1 hr.2.2.2.2.2.2).1
    obtain ⟨h', list', h1, h2, h3, -⟩ := listPoll_repr hr
    refine ⟨{ h' with blobs := h'.blobs.set c.buf none }, list', ?_, ?_⟩
    · simp [listRemove, h1, free, h3, hc]
    · exact Represents_blobs _ (Bufs_free _ hnd h2.2.1) h2

theorem listRemove_back_repr {h : Heap} {list : list_t} {cells : List Cell}
    (hr : Represents h list cells) :
    ∃ h' list', listRemove h list BACK = some (h', list') ∧
      Represents h' list' cells.dropLast := by
  rcases nil_or_snoc cells with rfl | ⟨xs, c, rfl⟩
  · refine ⟨h, list, ?_, hr⟩
    simp [listRemove, listPop_nil hr, free, FRONT, BACK]
  · have hc : deref h.blobs (some c.buf) = some c.bytes := hr.2.1 c (by simp)
    have hnd : c.buf ∉ xs.map Cell.buf := by
      have := hr.2.2.2.2.2.2
      rw [List.map_append, List.nodup_append] at this
      intro hm
      exact this.2.2 hm (by simp)
    obtain ⟨h', list', h1, h2, h3, -⟩ := listPop_repr hr
    refine ⟨{ h' with blobs := h'.blobs.set c.buf none }, list', ?_, ?_⟩
    · simp [listRemove, h1, free, h3, hc, FRONT, BACK]
    · rw [List.dropLast_concat]
      exact Represents_blobs _ (Bufs_free _ hnd h2.2.1) h2

theorem listRemove_other {h : Heap} {list : list_t} {e : Nat} (h1 : e ≠ FRONT)
    (h2 : e ≠ BACK) : listRemove h list e = some (h, list) := by
  simp [listRemove, h1, h2]

theorem isNodeOf_repr {h : Heap} {list : list_t} {cells : List Cell} {a : Nat}
    (hr : Represents h list cells) (ha : isNodeOf h list a = true) :
    ∃ xs c ys, cells = xs ++ c :: ys ∧ c.addr = a := by
  simp only [isNodeOf, forwardNodes_repr hr, decide_eq_true_eq] at ha
  obtain ⟨c, hc, e⟩ := List.mem_map.1 ha
  obtain ⟨xs, ys, e'⟩ := List.append_of_mem hc
  exact ⟨xs, c, ys, e', e⟩

theorem applyOp_repr {h : Heap} {list : list_t} {cells : List Cell} (op : Op)
    (hr : Represents h list cells) (hok : argOk h list op = true) :
    ∃ h' list' cells', applyOp h list op = some (h', list') ∧
      Represents h' list' cells' := by
  cases op with
  | add data size =>
    simp only [argOk, decide_eq_true_eq] at hok
    obtain ⟨h', list', h1, h2⟩ := listAdd_repr data size hr hok
    exact ⟨h', list', _, h1, h2⟩
  | insert before data size =>
    simp only [argOk, Bool.and_eq_true, decide_eq_true_eq] at hok
    cases cells with
    | nil =>
      obtain ⟨h', list', h1, h2⟩ := listAdd_repr data size hr hok.1
      exact ⟨h', list', _, by simpa [applyOp, listInsert_nil before data size hr] using h1, h2⟩
    | cons c cs =>
      cases before with
      | none =>
        obtain ⟨h', list', h1, h2⟩ := listInsert_front data size hr hok.1
        exact ⟨h', list', _, h1, h2⟩
      | some a =>
        obtain ⟨xs, b, ys, e, rfl⟩ := isNodeOf_repr hr hok.2
        rw [e] at hr
        obtain ⟨h', list', h1, h2⟩ := listInsert_after data size hr hok.1
        exact ⟨h', list', _, h1, h2⟩
  | pop =>
    rcases nil_or_snoc cells with rfl | ⟨xs, c, rfl⟩
    · exact ⟨h, list, [], by simp [applyOp, listPop_nil hr], hr⟩
    · obtain ⟨h', list', h1, h2, -⟩ := listPop_repr hr
      exact ⟨h', list', xs, by simp [applyOp, h1], h2⟩
  | poll =>
    cases cells with
    | nil => exact ⟨h, list, [], by simp [applyOp, listPoll_nil hr], hr⟩
    | cons c cs =>
      obtain ⟨h', list', h1, h2, -⟩ := listPoll_repr hr
      exact ⟨h', list', cs, by simp [applyOp, h1], h2⟩
  | remove e =>
    by_cases h1 : e = FRONT
    · subst h1
      obtain ⟨h', list', h1, h2⟩ := listRemove_front_repr hr
      exact ⟨h', list', _, h1, h2⟩
    · by_cases h2 : e = BACK
      · subst h2
        obtain ⟨h', list', h1, h2⟩ := listRemove_back_repr hr
        exact ⟨h', list', _, h1, h2⟩
      · exact ⟨h, list, cells, listRemove_other h1 h2, hr⟩
  | pluck removed =>
    cases removed with
    | none => exact ⟨h, list, cells, by simp [applyOp, listPluck_null], hr⟩
    | some a =>
      simp only [argOk, nodeArgOk] at hok
      obtain ⟨xs, c, ys, e, rfl⟩ := isNodeOf_repr hr hok
      rw [e] at hr
      obtain ⟨h', list', h1, h2, -⟩ := listPluck_repr hr
      exact ⟨h', list', _, by simp [applyOp, h1], h2⟩

theorem runOps_repr {h : Heap} {list : list_t} {cells : List Cell} (ops : List Op)
    (hr : Represents h list cells) (hok : traceOk h list ops = true) :
    ∃ h' list' cells', runOps h list ops = some (h', list') ∧
      Represents h' list' cells' := by
  induction ops generalizing h list cells with
  | nil => exact ⟨h, list, cells, rfl, hr⟩
  | cons op ops ih =>
    simp only [traceOk, Bool.and_eq_true] at hok
    obtain ⟨h1, list1, cells1, e1, hr1⟩ := applyOp_repr op hr hok.1
    have hok2 := hok.2
    simp only [e1] at hok2
    obtain ⟨h', list', cells', e2, hr2⟩ := ih hr1 hok2
    exact ⟨h', list', cells', by simp [runOps, e1, e2], hr2⟩

theorem Represents_create (h : Heap) : Represents h listCreate [] :=
  (Represents_nil_iff h listCreate).2 rfl

theorem traceOk_of_queue (h : Heap) (list : list_t) (ops : List Op)
    (hq : ∀ op ∈ ops, isQueueCall op = true) : traceOk h list ops = true := by
  induction ops generalizing h list with
  | nil => rfl
  | cons op ops ih =>
    have h1 := hq op (List.mem_cons_self _ _)
    have h2 : argOk h list op = true := by
      cases op <;> simp_all [isQueueCall, argOk]
    simp only [traceOk, h2, Bool.true_and]
    cases e : applyOp h list op with
    | none => rfl
    | some r => exact ih r.1 r.2 (fun o ho => hq o (List.mem_cons_of_mem _ ho))

theorem Represents_ends {h : Heap} {list : list_t} {cells : List Cell}
    (hr : Represents h list cells) :
    (list.first = none ↔ list.last = none) ∧ (list.last = none ↔ list.length = 0) := by
  obtain ⟨-, -, hfirst, hlast, hlen, -⟩ := hr
  cases cells with
  | nil => simp [hfirst, hlast, hlen, headPtr, lastPtr]
  | cons c cs =>
    obtain ⟨a, ha, -⟩ := lastPtr_mem (List.cons_ne_nil c cs) none
    have : list.length ≠ 0 := by
      rw [hlen]
      simp only [List.length_cons]
      omega
    simp [hfirst, hlast, ha, headPtr, this]

theorem nodeCount_repr {h : Heap} {list : list_t} {cells : List Cell}
    (hr : Represents h list cells) : nodeCount h list = some cells.length := by
  simp [nodeCount, forwardNodes_repr hr]

theorem demo_represents : Represents demoHeap demoList demoCells := by
  simp [Represents, Seg_cons, Seg_nil, Bufs, deref, headPtr, lastPtr, demoHeap, demoList,
    demoCells]

/-! ## The claims -/

/-- C1: after any finite sequence of `listAdd`, `listPop` and `listPoll` calls
on a list made by `listCreate` (pops and polls of the empty list included) the
calls all return, `length` is the number of nodes reachable from `first` along
`next`, and `first` is `NULL` iff `last` is `NULL` iff `length` is 0. -/
theorem queue_calls_keep_length (h0 : Heap) (ops : List Op)
    (hq : ∀ op ∈ ops, isQueueCall op = true) :
    ∃ h list n, runOps h0 listCreate ops = some (h, list) ∧
      nodeCount h list = some n ∧ list.length = (n : Int) ∧
      (list.first = none ↔ list.last = none) ∧ (list.last = none ↔ list.length = 0) := by
  obtain ⟨h, list, cells, hrun, hr⟩ :=
    runOps_repr ops (Represents_create h0) (traceOk_of_queue h0 listCreate ops hq)
  exact ⟨h, list, cells.length, hrun, nodeCount_repr hr, hr.2.2.2.2.1, Represents_ends hr⟩

/-- C1, at a concrete sequence of calls on a fresh heap. -/
theorem queue_calls_keep_length_witness :
    (∀ op ∈ [Op.pop, Op.add [1, 2] 2, Op.add [3] 1, Op.poll, Op.add [4, 5, 6] 2, Op.pop,
        Op.pop, Op.poll], isQueueCall op = true) ∧
      ∃ h list n, runOps ⟨[], []⟩ listCreate [Op.pop, Op.add [1, 2] 2, Op.add [3] 1, Op.poll,
          Op.add [4, 5, 6] 2, Op.pop, Op.pop, Op.poll] = some (h, list) ∧
        nodeCount h list = some n ∧ list.length = (n : Int) ∧
        (list.first = none ↔ list.last = none) ∧ (list.last = none ↔ list.length = 0) :=
  ⟨by decide, queue_calls_keep_length ⟨[], []⟩ _ (by decide)⟩

/-- C2: on a well-formed list, `listAdd` of `size` bytes followed by `listPop`
returns a pointer to a buffer holding exactly those bytes (a buffer that did
not exist before the append, that is a copy), and the list is again what it was:
same header, same length, same sequence of stored values. -/
theorem listAdd_then_listPop (h : Heap) (list : list_t) (data : List Nat) (size : Nat)
    (hwf : WellFormed h list) (hsz : size ≤ data.length) :
    ∃ h1 list1 p h2 list2 vs,
      listAdd h list data size = some (h1, list1) ∧
      listPop h1 list1 = some (some p, h2, list2) ∧
      bytesAt h2 (some p) = some (data.take size) ∧
      bytesAt h (some p) = none ∧
      list2 = list ∧ list2.length = list.length ∧
      forwardValues h list = some vs ∧ forwardValues h2 list2 = some vs ∧
      WellFormed h2 list2 := by
  obtain ⟨cells, hr⟩ := hwf
  obtain ⟨h1, list1, e1, hr1⟩ := listAdd_repr data size hr hsz
  obtain ⟨h2, list2, e2, hr2, hb, -⟩ := listPop_repr hr1
  have hl : list2 = list := by
    obtain ⟨-, -, a1, a2, a3, -⟩ := hr
    obtain ⟨-, -, b1, b2, b3, -⟩ := hr2
    cases list
    cases list2
    simp_all
  refine ⟨h1, list1, h.blobs.length, h2, list2, cells.map Cell.bytes, e1, e2, ?_, ?_, hl,
    by rw [hl], forwardValues_repr hr, forwardValues_repr hr2, ⟨cells, hr2⟩⟩
  · have := hr1.2.1 ⟨h.nodes.length, h.blobs.length, data.take size⟩ (by simp)
    simpa [bytesAt, hb] using this
  · simp [bytesAt, deref]

/-- C2, at the sample list and the value `[8, 9]`. -/
theorem listAdd_then_listPop_witness :
    WellFormed demoHeap demoList ∧ 2 ≤ [8, 9].length ∧
    ∃ h1 list1 p h2 list2 vs,
      listAdd demoHeap demoList [8, 9] 2 = some (h1, list1) ∧
      listPop h1 list1 = some (some p, h2, list2) ∧
      bytesAt h2 (some p) = some ([8, 9].take 2) ∧
      bytesAt demoHeap (some p) = none ∧
      list2 = demoList ∧ list2.length = demoList.length ∧
      forwardValues demoHeap demoList = some vs ∧
      forwardValues h2 list2 = some vs ∧ WellFormed h2 list2 :=
  ⟨⟨demoCells, demo_represents⟩, by decide,
    listAdd_then_listPop demoHeap demoList [8, 9] 2 ⟨demoCells, demo_represents⟩ (by decide)⟩

/-- C3 as stated fails: on the sample list, which holds `[1]`, `[2, 2]`, `[3]`,
`listAdd` of `[8, 9]` followed by `listPoll` returns the buffer holding `[1]`,
the oldest item, not the value just appended. -/
theorem listAdd_then_listPoll_counterexample :
    WellFormed demoHeap demoList ∧
    ∃ h1 list1 p h2 list2,
      listAdd demoHeap demoList [8, 9] 2 = some (h1, list1) ∧
      listPoll h1 list1 = some (some p, h2, list2) ∧
      bytesAt h2 (some p) = some [1] ∧
      bytesAt h2 (some p) ≠ some ([8, 9].take 2) := by
  refine ⟨⟨demoCells, demo_represents⟩, _, _, 0, _, _, rfl, rfl, ?_, ?_⟩ <;> decide

/-- C3, amended: on a well-formed list, `listAdd` followed by `listPoll` returns
the first item of the list after the append, which is the oldest item the list
held before, and the appended value only when the list was empty; the length
after the poll is exactly one less than the length right after the append. -/
theorem listAdd_then_listPoll (h : Heap) (list : list_t) (data : List Nat) (size : Nat)
    (hwf : WellFormed h list) (hsz : size ≤ data.length) :
    ∃ h1 list1 p h2 list2 vs,
      listAdd h list data size = some (h1, list1) ∧
      listPoll h1 list1 = some (some p, h2, list2) ∧
      forwardValues h list = some vs ∧
      bytesAt h2 (some p) = (vs ++ [data.take size]).head? ∧
      (list.length = 0 → bytesAt h2 (some p) = some (data.take size)) ∧
      list2.length = list1.length - 1 := by
  obtain ⟨cells, hr⟩ := hwf
  obtain ⟨h1, list1, e1, hr1⟩ := listAdd_repr data size hr hsz
  cases cells with
  | nil =>
    obtain ⟨h2, list2, e2, hr2, hb, hlen⟩ := listPoll_repr hr1
    have hv := hr1.2.1 ⟨h.nodes.length, h.blobs.length, data.take size⟩ (by simp)
    have hv' : bytesAt h2 (some h.blobs.length) = some (data.take size) := by
      simpa [bytesAt, hb] using hv
    exact ⟨h1, list1, _, h2, list2, [], e1, e2, forwardValues_repr hr, by simpa using hv',
      fun _ => hv', hlen⟩
  | cons c cs =>
    obtain ⟨h2, list2, e2, hr2, hb, hlen⟩ := listPoll_repr hr1
    have hv := hr1.2.1 c (by simp)
    have hv' : bytesAt h2 (some c.buf) = some c.bytes := by
      simpa [bytesAt, hb] using hv
    refine ⟨h1, list1, _, h2, list2, _, e1, e2, forwardValues_repr hr, by simpa using hv',
      ?_, hlen⟩
    intro h0
    have := hr.2.2.2.2.1
    rw [h0] at this
    simp only [List.length_cons] at this
    omega

/-- C3 amended, at the sample list and the value `[8, 9]`. -/
theorem listAdd_then_listPoll_witness :
    WellFormed demoHeap demoList ∧ 2 ≤ [8, 9].length ∧
    ∃ h1 list1 p h2 list2 vs,
      listAdd demoHeap demoList [8, 9] 2 = some (h1, list1) ∧
      listPoll h1 list1 = some (some p, h2, list2) ∧
      forwardValues demoHeap demoList = some vs ∧
      bytesAt h2 (some p) = (vs ++ [[8, 9].take 2]).head? ∧
      (demoList.length = 0 → bytesAt h2 (some p) = some ([8, 9].take 2)) ∧
      list2.length = list1.length - 1 :=
  ⟨⟨demoCells, demo_represents⟩, by decide,
    listAdd_then_listPoll demoHeap demoList [8, 9] 2 ⟨demoCells, demo_represents⟩
      (by decide)⟩

theorem addAll_repr {h : Heap} {list : list_t} {cells : List Cell} (xs : List (List Nat))
    (hr : Represents h list cells) :
    ∃ h' list' cs, addAll h list xs = some (h', list') ∧
      Represents h' list' (cells ++ cs) ∧ cs.map Cell.bytes = xs := by
  induction xs generalizing h list cells with
  | nil => exact ⟨h, list, [], rfl, by simpa using hr, rfl⟩
  | cons x xs ih =>
    obtain ⟨h1, list1, e1, hr1⟩ := listAdd_repr x x.length hr (Nat.le_refl _)
    obtain ⟨h2, list2, cs, e2, hr2, hcs⟩ := ih hr1
    refine ⟨h2, list2, ⟨h.nodes.length, h.blobs.length, x.take x.length⟩ :: cs, ?_, ?_, ?_⟩
    · simp [addAll, e1, e2]
    · simpa using hr2
    · simp [hcs]

theorem takeN_listPoll {h : Heap} {list : list_t} {cells : List Cell}
    (hr : Represents h list cells) :
    ∃ h' list', takeN listPoll h list cells.length
        = some (cells.map (fun c => some c.buf), h', list') ∧
      Represents h' list' [] ∧ h'.blobs = h.blobs := by
  induction cells generalizing h list with
  | nil => exact ⟨h, list, rfl, hr, rfl⟩
  | cons c cs ih =>
    obtain ⟨h1, list1, e1, hr1, hb1, -⟩ := listPoll_repr hr
    obtain ⟨h2, list2, e2, hr2, hb2⟩ := ih hr1
    exact ⟨h2, list2, by simp [takeN, e1, e2], hr2, by rw [hb2, hb1]⟩

theorem takeN_listPop {h : Heap} {list : list_t} {cells : List Cell}
    (hr : Represents h list cells) :
    ∃ h' list', takeN listPop h list cells.length
        = some (cells.reverse.map (fun c => some c.buf), h', list') ∧
      Represents h' list' [] ∧ h'.blobs = h.blobs := by
  induction cells using List.reverseRecOn generalizing h list with
  | nil => exact ⟨h, list, rfl, hr, rfl⟩
  | append_singleton cs c ih =>
    obtain ⟨h1, list1, e1, hr1, hb1, -⟩ := listPop_repr hr
    obtain ⟨h2, list2, e2, hr2, hb2⟩ := ih hr1
    exact ⟨h2, list2, by simp [takeN, e1, e2], hr2, by rw [hb2, hb1]⟩

theorem map_bytesAt {h : Heap} {cells : List Cell} (hb : Bufs h.blobs cells) (cs : List Cell)
    (hsub : ∀ c ∈ cs, c ∈ cells) :
    (cs.map (fun c => some c.buf)).map (bytesAt h) = (cs.map Cell.bytes).map some := by
  induction cs with
  | nil => rfl
  | cons c cs ih =>
    have h1 := hb c (hsub c (List.mem_cons_self _ _))
    have h2 := ih (fun d hd => hsub d (List.mem_cons_of_mem _ hd))
    simp only [List.map_cons, bytesAt, h1, List.cons.injEq, true_and]
    simpa [bytesAt] using h2

/-- C4: the list is a FIFO queue and a LIFO stack.  After appending the values
`xs` in order to a list made by `listCreate`, as many `listPoll` calls as there
are values return them in the order appended, as many `listPop` calls return
them in the opposite order, and either way the list ends empty: `length` 0,
`first` and `last` `NULL`. -/
theorem fifo_and_lifo (h0 : Heap) (xs : List (List Nat)) :
    ∃ h1 list1, addAll h0 listCreate xs = some (h1, list1) ∧
      (∃ ps h2 list2, takeN listPoll h1 list1 xs.length = some (ps, h2, list2) ∧
        ps.map (bytesAt h2) = xs.map some ∧
        list2.length = 0 ∧ list2.first = none ∧ list2.last = none) ∧
      (∃ ps h2 list2, takeN listPop h1 list1 xs.length = some (ps, h2, list2) ∧
        ps.map (bytesAt h2) = xs.reverse.map some ∧
        list2.length = 0 ∧ list2.first = none ∧ list2.last = none) := by
  obtain ⟨h1, list1, cs, e1, hr1, hcs⟩ := addAll_repr xs (Represents_create h0)
  rw [List.nil_append] at hr1
  have hlen : xs.length = cs.length := by rw [← hcs, List.length_map]
  refine ⟨h1, list1, e1, ?_, ?_⟩
  · obtain ⟨h2, list2, e2, hr2, hb⟩ := takeN_listPoll hr1
    have hnil := (Represents_nil_iff h2 list2).1 hr2
    refine ⟨_, h2, list2, by rw [hlen]; exact e2, ?_, by rw [hnil], by rw [hnil],
      by rw [hnil]⟩
    have hb2 : Bufs h2.blobs cs := by rw [hb]; exact hr1.2.1
    rw [map_bytesAt hb2 cs (fun _ hc => hc), hcs]
  · obtain ⟨h2, list2, e2, hr2, hb⟩ := takeN_listPop hr1
    have hnil := (Represents_nil_iff h2 list2).1 hr2
    refine ⟨_, h2, list2, by rw [hlen]; exact e2, ?_, by rw [hnil], by rw [hnil],
      by rw [hnil]⟩
    have hb2 : Bufs h2.blobs cs := by rw [hb]; exact hr1.2.1
    rw [map_bytesAt hb2 cs.reverse (fun _ hc => List.mem_reverse.1 hc), List.map_reverse, hcs]

/-! ## Cursors -/

theorem listNext_eq_advanceWith : listNext = advanceWith linked_node_t.next := rfl

theorem listPrev_eq_advanceWith : listPrev = advanceWith linked_node_t.prev := rfl

theorem headPtr_reverse (xs : List Cell) (d : Ptr) : headPtr xs.reverse d = lastPtr xs d := by
  rcases nil_or_snoc xs with rfl | ⟨ys, b, rfl⟩
  · rfl
  · rw [List.reverse_append, lastPtr_append]
    rfl

theorem Chain_next_of_Seg {m : List (Option linked_node_t)} {cells : List Cell} {prev : Ptr}
    (hs : Seg m prev cells none) : Chain linked_node_t.next m cells := by
  induction cells generalizing prev with
  | nil => trivial
  | cons c cs ih => exact ⟨⟨_, hs.1, rfl, rfl⟩, ih hs.2⟩

theorem Chain_prev_of_Seg {m : List (Option linked_node_t)} {cells : List Cell} {nxt : Ptr}
    (hs : Seg m none cells nxt) : Chain linked_node_t.prev m cells.reverse := by
  induction cells using List.reverseRecOn generalizing nxt with
  | nil => trivial
  | append_singleton ys b ih =>
    rw [List.reverse_append]
    refine ⟨⟨_, Seg_last hs, rfl, ?_⟩, ih ((Seg_append _ _ _ _).1 hs).1⟩
    exact (headPtr_reverse ys none).symm

theorem iterN_null (succ : linked_node_t → Ptr) (h : Heap) (k : Nat) (s : Bool) :
    iterN (advanceWith succ) h k ⟨none, s⟩ = some (List.replicate k none, ⟨none, s⟩) := by
  induction k with
  | zero => rfl
  | succ k ih =>
    have : advanceWith succ h ⟨none, s⟩ = some (none, ⟨none, s⟩) := by
      simp [advanceWith]
    simp [iterN, this, ih, List.replicate_succ]

theorem iterN_started (succ : linked_node_t → Ptr) (h : Heap) (k : Nat) (c : Cell)
    (cs : List Cell) (hc : Chain succ h.nodes (c :: cs)) :
    iterN (advanceWith succ) h k ⟨some c.addr, true⟩
      = some ((cs.map (fun d => some d.buf)).take k ++ List.replicate (k - cs.length) none,
          ⟨((c :: cs)[k]?).map Cell.addr, true⟩) := by
  induction k generalizing c cs with
  | zero => simp [iterN]
  | succ k ih =>
    obtain ⟨⟨n, hn, hd, hsucc⟩, hrest⟩ := hc
    cases cs with
    | nil =>
      have : advanceWith succ h ⟨some c.addr, true⟩ = some (none, ⟨none, true⟩) := by
        simp [advanceWith, hn, hsucc, headPtr, listCurrent]
      simp [iterN, this, iterN_null, List.replicate_succ]
    | cons d ds =>
      obtain ⟨nd, hnd, hdd, -⟩ := hrest.1
      have : advanceWith succ h ⟨some c.addr, true⟩
          = some (some d.buf, ⟨some d.addr, true⟩) := by
        simp [advanceWith, hn, hsucc, headPtr, listCurrent, hnd, hdd]
      simp [iterN, this, ih d ds hrest]

theorem iterN_fresh (succ : linked_node_t → Ptr) (h : Heap) (k : Nat) (cells : List Cell)
    (hc : Chain succ h.nodes cells) :
    ∃ iter, iterN (advanceWith succ) h k ⟨headPtr cells none, false⟩
        = some ((cells.map (fun d => some d.buf)).take k
            ++ List.replicate (k - cells.length) none, iter) ∧
      (cells.length < k → iter.current = none) := by
  cases cells with
  | nil =>
    refine ⟨⟨none, false⟩, ?_, fun _ => rfl⟩
    simp [headPtr, iterN_null]
  | cons c cs =>
    cases k with
    | zero =>
      exact ⟨⟨headPtr (c :: cs) none, false⟩, by simp [iterN],
        fun hk => absurd hk (Nat.not_lt_zero _)⟩
    | succ k =>
      obtain ⟨n, hn, hd, -⟩ := hc.1
      have : advanceWith succ h ⟨some c.addr, false⟩
          = some (some c.buf, ⟨some c.addr, true⟩) := by
        simp [advanceWith, hn, hd]
      refine ⟨⟨((c :: cs)[k]?).map Cell.addr, true⟩, ?_, ?_⟩
      · simp [headPtr, iterN, this, iterN_started succ h k c cs hc]
      · intro hk
        have hk' : (c :: cs).length ≤ k := by omega
        have : (c :: cs)[k]? = none := List.getElem?_eq_none hk'
        simp [this]

theorem listCurrent_null (h : Heap) (iter : list_iter_t) (hc : iter.current = none) :
    listCurrent h iter = some none := by
  simp [listCurrent, hc]

theorem listIterator_front (list : list_t) :
    listIterator list FRONT = some ⟨list.first, false⟩ := by
  simp [listIterator]

theorem listIterator_back (list : list_t) :
    listIterator list BACK = some ⟨list.last, false⟩ := by
  simp [listIterator, FRONT, BACK]

theorem iterN_listNext_repr {h : Heap} {list : list_t} {cells : List Cell} (k : Nat)
    (hr : Represents h list cells) :
    ∃ iter, iterN listNext h k ⟨list.first, false⟩
        = some ((cells.map (fun d => some d.buf)).take k
            ++ List.replicate (k - cells.length) none, iter) ∧
      (cells.length < k → iter.current = none) := by
  rw [listNext_eq_advanceWith, hr.2.2.1]
  exact iterN_fresh _ h k cells (Chain_next_of_Seg hr.1)

theorem iterN_listPrev_repr {h : Heap} {list : list_t} {cells : List Cell} (k : Nat)
    (hr : Represents h list cells) :
    ∃ iter, iterN listPrev h k ⟨list.last, false⟩
        = some ((cells.reverse.map (fun d => some d.buf)).take k
            ++ List.replicate (k - cells.length) none, iter) ∧
      (cells.length < k → iter.current = none) := by
  rw [listPrev_eq_advanceWith, hr.2.2.2.1, ← headPtr_reverse]
  have := iterN_fresh _ h k cells.reverse (Chain_prev_of_Seg hr.1)
  simpa using this

/-- C5: on a well-formed list and for both directions, `listCurrent` on the
cursor `listIterator` has just made returns `NULL`, and after more advance
calls in the cursor's direction than the list has items (`listNext` for
`FRONT`, `listPrev` for `BACK`) it returns `NULL` again; none of these calls
fails. -/
theorem cursor_reads_empty (h : Heap) (list : list_t) (hwf : WellFormed h list) :
    (∃ iter, listIterator list FRONT = some iter ∧ listCurrent h iter = some none ∧
      ∀ k : Nat, list.length < (k : Int) →
        ∃ rs iter', iterN listNext h k iter = some (rs, iter') ∧
          listCurrent h iter' = some none) ∧
    (∃ iter, listIterator list BACK = some iter ∧ listCurrent h iter = some none ∧
      ∀ k : Nat, list.length < (k : Int) →
        ∃ rs iter', iterN listPrev h k iter = some (rs, iter') ∧
          listCurrent h iter' = some none) := by
  obtain ⟨cells, hr⟩ := hwf
  have hlen := hr.2.2.2.2.1
  refine ⟨⟨_, listIterator_front list, by simp [listCurrent], ?_⟩,
    ⟨_, listIterator_back list, by simp [listCurrent], ?_⟩⟩
  · intro k hk
    obtain ⟨iter, e, hcur⟩ := iterN_listNext_repr k hr
    rw [hlen] at hk
    exact ⟨_, iter, e, listCurrent_null h iter (hcur (by exact_mod_cast hk))⟩
  · intro k hk
    obtain ⟨iter, e, hcur⟩ := iterN_listPrev_repr k hr
    rw [hlen] at hk
    exact ⟨_, iter, e, listCurrent_null h iter (hcur (by exact_mod_cast hk))⟩

/-- C5, at the sample list. -/
theorem cursor_reads_empty_witness :
    WellFormed demoHeap demoList ∧
    (∃ iter, listIterator demoList FRONT = some iter ∧
      listCurrent demoHeap iter = some none ∧
      ∀ k : Nat, demoList.length < (k : Int) →
        ∃ rs iter', iterN listNext demoHeap k iter = some (rs, iter') ∧
          listCurrent demoHeap iter' = some none) ∧
    (∃ iter, listIterator demoList BACK = some iter ∧
      listCurrent demoHeap iter = some none ∧
      ∀ k : Nat, demoList.length < (k : Int) →
        ∃ rs iter', iterN listPrev demoHeap k iter = some (rs, iter') ∧
          listCurrent demoHeap iter' = some none) :=
  ⟨⟨demoCells, demo_represents⟩,
    cursor_reads_empty demoHeap demoList ⟨demoCells, demo_represents⟩⟩

theorem drop_take_pad {α : Type} (xs : List α) (k : Nat) (x : α) :
    (xs.take k ++ List.replicate (k - xs.length) x).drop xs.length
      = List.replicate (k - xs.length) x := by
  by_cases hk : k ≤ xs.length
  · have h0 : k - xs.length = 0 := by omega
    rw [h0]
    simp only [List.replicate_zero, List.append_nil]
    apply List.drop_eq_nil_of_le
    simp only [List.length_take]
    omega
  · rw [List.take_of_length_le (by omega)]
    simp

/-- C6: on a well-formed list holding the values `vs`, the first `k` calls of
`listNext` on a `FRONT` cursor all return, and return pointers to the first
`k` values in list order followed by `NULL` for every call past the last item;
on a `BACK` cursor the first `k` calls of `listPrev` return the values in
reverse list order followed by `NULL`. -/
theorem cursor_traversal (h : Heap) (list : list_t) (hwf : WellFormed h list) :
    ∃ vs, forwardValues h list = some vs ∧
      (∃ iter, listIterator list FRONT = some iter ∧
        ∀ k : Nat, ∃ rs iter', iterN listNext h k iter = some (rs, iter') ∧
          rs.map (bytesAt h) = (vs.map some).take k ++ List.replicate (k - vs.length) none ∧
          rs.drop vs.length = List.replicate (k - vs.length) none) ∧
      (∃ iter, listIterator list BACK = some iter ∧
        ∀ k : Nat, ∃ rs iter', iterN listPrev h k iter = some (rs, iter') ∧
          rs.map (bytesAt h)
            = (vs.reverse.map some).take k ++ List.replicate (k - vs.length) none ∧
          rs.drop vs.length = List.replicate (k - vs.length) none) := by
  obtain ⟨cells, hr⟩ := hwf
  refine ⟨cells.map Cell.bytes, forwardValues_repr hr,
    ⟨_, listIterator_front list, ?_⟩, ⟨_, listIterator_back list, ?_⟩⟩
  · intro k
    obtain ⟨iter, e, -⟩ := iterN_listNext_repr k hr
    refine ⟨_, iter, e, ?_, ?_⟩
    · rw [List.map_append, List.map_take, map_bytesAt hr.2.1 cells (fun _ hc => hc)]
      simp [bytesAt, deref]
    · have := drop_take_pad (cells.map (fun d => some d.buf)) k none
      simpa using this
  · intro k
    obtain ⟨iter, e, -⟩ := iterN_listPrev_repr k hr
    refine ⟨_, iter, e, ?_, ?_⟩
    · rw [List.map_append, List.map_take,
        map_bytesAt hr.2.1 cells.reverse (fun _ hc => List.mem_reverse.1 hc)]
      simp [bytesAt, deref]
    · have := drop_take_pad (cells.reverse.map (fun d => some d.buf)) k none
      simpa using this

/-- C6, at the sample list. -/
theorem cursor_traversal_witness :
    WellFormed demoHeap demoList ∧
    ∃ vs, forwardValues demoHeap demoList = some vs ∧
      (∃ iter, listIterator demoList FRONT = some iter ∧
        ∀ k : Nat, ∃ rs iter', iterN listNext demoHeap k iter = some (rs, iter') ∧
          rs.map (bytesAt demoHeap)
            = (vs.map some).take k ++ List.replicate (k - vs.length) none ∧
          rs.drop vs.length = List.replicate (k - vs.length) none) ∧
      (∃ iter, listIterator demoList BACK = some iter ∧
        ∀ k : Nat, ∃ rs iter', iterN listPrev demoHeap k iter = some (rs, iter') ∧
          rs.map (bytesAt demoHeap)
            = (vs.reverse.map some).take k ++ List.replicate (k - vs.length) none ∧
          rs.drop vs.length = List.replicate (k - vs.length) none) :=
  ⟨⟨demoCells, demo_represents⟩,
    cursor_traversal demoHeap demoList ⟨demoCells, demo_represents⟩⟩

theorem LinksSymmetric_repr {h : Heap} {list : list_t} {cells : List Cell}
    (hr : Represents h list cells) : LinksSymmetric h list := by
  refine ⟨?_, ?_, ?_⟩
  · intro a n ha hn
    obtain ⟨xs, c, ys, e, rfl⟩ := isNodeOf_repr hr ha
    have hseg := hr.1
    rw [e, Seg_append] at hseg
    obtain ⟨hA, hc, hB⟩ := hseg
    rw [hc] at hn
    have hn' := (Option.some.inj hn).symm
    subst hn'
    constructor
    · intro b hb
      cases ys with
      | nil => simp [headPtr] at hb
      | cons y zs =>
        simp only [headPtr, Option.some.injEq] at hb
        subst hb
        exact ⟨_, hB.1, rfl⟩
    · intro b hb
      rcases nil_or_snoc xs with rfl | ⟨ws, w, rfl⟩
      · simp [lastPtr] at hb
      · simp only [lastPtr_append, lastPtr, Option.some.injEq] at hb
        subst hb
        exact ⟨_, Seg_last hA, rfl⟩
  · intro a ha
    cases cells with
    | nil =>
      rw [hr.2.2.1] at ha
      simp [headPtr] at ha
    | cons c cs =>
      rw [hr.2.2.1] at ha
      simp only [headPtr, Option.some.injEq] at ha
      subst ha
      exact ⟨_, hr.1.1, rfl⟩
  · intro a ha
    rcases nil_or_snoc cells with rfl | ⟨ws, w, rfl⟩
    · rw [hr.2.2.2.1] at ha
      simp [lastPtr] at ha
    · rw [hr.2.2.2.1] at ha
      simp only [lastPtr_append, lastPtr, Option.some.injEq] at ha
      subst ha
      exact ⟨_, Seg_last hr.1, rfl⟩

/-- C7: after any sequence of `listAdd`, `listInsert`, `listPop`, `listPoll`,
`listRemove` and `listPluck` calls on a list made by `listCreate`, each node
argument being `NULL` or a node of the list at the time of its call, the calls
all return, the values read from `first` along `next` are the reverse of the
values read from `last` along `prev`, and neighbouring nodes point at each
other (`first.prev` and `last.next` are `NULL`). -/
theorem traversal_symmetric (h0 : Heap) (ops : List Op)
    (hok : traceOk h0 listCreate ops = true) :
    ∃ h list vs, runOps h0 listCreate ops = some (h, list) ∧
      forwardValues h list = some vs ∧ backwardValues h list = some vs.reverse ∧
      LinksSymmetric h list := by
  obtain ⟨h, list, cells, hrun, hr⟩ := runOps_repr ops (Represents_create h0) hok
  exact ⟨h, list, _, hrun, forwardValues_repr hr, backwardValues_repr hr,
    LinksSymmetric_repr hr⟩

/-- C7, at a concrete sequence that takes every branch of `listInsert` and
`listPluck`. -/
theorem traversal_symmetric_witness :
    traceOk ⟨[], []⟩ listCreate
        [Op.insert none [1] 1, Op.add [2] 1, Op.insert (some 0) [3] 1, Op.insert none [4] 1,
          Op.insert (some 1) [5] 1, Op.pluck (some 2), Op.pluck (some 3), Op.pluck (some 4),
          Op.add [6] 1, Op.remove 0, Op.remove 1, Op.remove 2, Op.pop, Op.add [7] 1, Op.pluck (some 6),
          Op.poll, Op.pluck none] = true ∧
      ∃ h list vs, runOps ⟨[], []⟩ listCreate
          [Op.insert none [1] 1, Op.add [2] 1, Op.insert (some 0) [3] 1, Op.insert none [4] 1,
            Op.insert (some 1) [5] 1, Op.pluck (some 2), Op.pluck (some 3), Op.pluck (some 4),
            Op.add [6] 1, Op.remove 0, Op.remove 1, Op.remove 2, Op.pop, Op.add [7] 1, Op.pluck (some 6),
            Op.poll, Op.pluck none] = some (h, list) ∧
        forwardValues h list = some vs ∧ backwardValues h list = some vs.reverse ∧
        LinksSymmetric h list :=
  ⟨by decide, traversal_symmetric ⟨[], []⟩ _ (by decide)⟩

/-- C8, the failing input: on the empty list returned by `listCreate` both
`listFirst` and `listLast` dereference the `NULL` in `first`, respectively
`last`; the model records the undefined behaviour as `none`, whereas a returned
`NULL` would be `some none`. -/
theorem listFirst_listLast_empty (h : Heap) :
    listFirst h listCreate = none ∧ listLast h listCreate = none ∧
      listFirst h listCreate ≠ some none ∧ listLast h listCreate ≠ some none := by
  simp [listFirst, listLast, listCreate, deref]

theorem listFirst_nonempty {h : Heap} {list : list_t} {c : Cell} {cs : List Cell}
    (hr : Represents h list (c :: cs)) : listFirst h list = some (some c.buf) := by
  have h1 : list.first = some c.addr := hr.2.2.1
  simp [listFirst, h1, hr.1.1]

theorem listLast_nonempty {h : Heap} {list : list_t} {c : Cell} {cs : List Cell}
    (hr : Represents h list (cs ++ [c])) : listLast h list = some (some c.buf) := by
  have h1 : list.last = some c.addr := by
    rw [hr.2.2.2.1, lastPtr_append]
    rfl
  simp [listLast, h1, Seg_last hr.1]

/-- C9: on a well-formed list holding the items `xs ++ c :: ys`, `listPluck` of
the node of `c` returns the buffer of `c` with its bytes intact, leaves a
well-formed list holding `xs ++ ys` in that order, and decreases `length` by
exactly 1; `listPluck` of `NULL` returns `NULL` and changes nothing. -/
theorem listPluck_removes (h : Heap) (list : list_t) (xs ys : List Cell) (c : Cell)
    (hr : Represents h list (xs ++ c :: ys)) :
    (∃ h' list', listPluck h list (some c.addr) = some (some c.buf, h', list') ∧
      bytesAt h' (some c.buf) = some c.bytes ∧
      Represents h' list' (xs ++ ys) ∧
      forwardValues h list = some (xs.map Cell.bytes ++ c.bytes :: ys.map Cell.bytes) ∧
      forwardValues h' list' = some (xs.map Cell.bytes ++ ys.map Cell.bytes) ∧
      list'.length = list.length - 1) ∧
    listPluck h list none = some (none, h, list) := by
  refine ⟨?_, listPluck_null h list⟩
  obtain ⟨h', list', e, hr', hb, hlen⟩ := listPluck_repr hr
  refine ⟨h', list', e, ?_, hr', ?_, ?_, hlen⟩
  · have := hr.2.1 c (by simp)
    simpa [bytesAt, hb] using this
  · simpa using forwardValues_repr hr
  · simpa using forwardValues_repr hr'

/-- C9, at the middle node of the sample list. -/
theorem listPluck_removes_witness :
    Represents demoHeap demoList ([⟨0, 0, [1]⟩] ++ ⟨1, 1, [2, 2]⟩ :: [⟨2, 2, [3]⟩]) ∧
    (∃ h' list', listPluck demoHeap demoList (some 1) = some (some 1, h', list') ∧
      bytesAt h' (some 1) = some [2, 2] ∧
      Represents h' list' ([⟨0, 0, [1]⟩] ++ [⟨2, 2, [3]⟩]) ∧
      forwardValues demoHeap demoList = some ([[1]] ++ [2, 2] :: [[3]]) ∧
      forwardValues h' list' = some ([[1]] ++ [[3]]) ∧
      list'.length = demoList.length - 1) ∧
    listPluck demoHeap demoList none = some (none, demoHeap, demoList) :=
  ⟨demo_represents,
    listPluck_removes demoHeap demoList [⟨0, 0, [1]⟩] [⟨2, 2, [3]⟩] ⟨1, 1, [2, 2]⟩
      demo_represents⟩

/-- C10: `listInsert` adds the item after the node `before`.  On a well-formed
list holding the items `xs ++ b :: ys`, `listInsert` with `before` the node of
`b` leaves a well-formed list holding `xs ++ b :: x :: ys`, where `x` is a new
item with the `size` bytes of `data`, and increases `length` by exactly 1; with
`ys` empty the new item is the last one. -/
theorem listInsert_after_node (h : Heap) (list : list_t) (xs ys : List Cell) (b : Cell)
    (data : List Nat) (size : Nat) (hr : Represents h list (xs ++ b :: ys))
    (hsz : size ≤ data.length) :
    ∃ h' list' x, listInsert h list (some b.addr) data size = some (h', list') ∧
      x.bytes = data.take size ∧
      Represents h' list' (xs ++ b :: x :: ys) ∧
      forwardValues h list = some (xs.map Cell.bytes ++ b.bytes :: ys.map Cell.bytes) ∧
      forwardValues h' list'
        = some (xs.map Cell.bytes ++ b.bytes :: data.take size :: ys.map Cell.bytes) ∧
      list'.length = list.length + 1 ∧
      (ys = [] → list'.last = some x.addr) := by
  obtain ⟨h', list', e, hr'⟩ := listInsert_after data size hr hsz
  refine ⟨h', list', ⟨h.nodes.length, h.blobs.length, data.take size⟩, e, rfl, hr', ?_, ?_,
    ?_, ?_⟩
  · simpa using forwardValues_repr hr
  · simpa using forwardValues_repr hr'
  · rw [hr'.2.2.2.2.1, hr.2.2.2.2.1]
    simp only [List.length_append, List.length_cons]
    push_cast
    ring
  · intro hy
    subst hy
    rw [hr'.2.2.2.1, lastPtr_append]
    rfl

/-- C10, after the middle node of the sample list. -/
theorem listInsert_after_node_witness :
    Represents demoHeap demoList ([⟨0, 0, [1]⟩] ++ ⟨1, 1, [2, 2]⟩ :: [⟨2, 2, [3]⟩]) ∧
    2 ≤ [8, 9].length ∧
    ∃ h' list' x, listInsert demoHeap demoList (some 1) [8, 9] 2 = some (h', list') ∧
      x.bytes = [8, 9].take 2 ∧
      Represents h' list' ([⟨0, 0, [1]⟩] ++ ⟨1, 1, [2, 2]⟩ :: x :: [⟨2, 2, [3]⟩]) ∧
      forwardValues demoHeap demoList = some ([[1]] ++ [2, 2] :: [[3]]) ∧
      forwardValues h' list' = some ([[1]] ++ [2, 2] :: [8, 9].take 2 :: [[3]]) ∧
      list'.length = demoList.length + 1 ∧
      (([⟨2, 2, [3]⟩] : List Cell) = [] → list'.last = some x.addr) :=
  ⟨demo_represents, by decide,
    listInsert_after_node demoHeap demoList [⟨0, 0, [1]⟩] [⟨2, 2, [3]⟩] ⟨1, 1, [2, 2]⟩ [8, 9] 2
      demo_represents (by decide)⟩

/-! ## Removal through the destructor, well-formedness, empty lists -/

theorem CountsAgree_repr {h : Heap} {list : list_t} {cells : List Cell}
    (hr : Represents h list cells) : CountsAgree h list :=
  ⟨cells.length, nodeCount_repr hr, hr.2.2.2.2.1, Represents_ends hr⟩

theorem listPoll_total {h : Heap} {list : list_t} {cells : List Cell}
    (hr : Represents h list cells) :
    ∃ p h1 list1, listPoll h list = some (p, h1, list1) ∧ Represents h1 list1 cells.tail ∧
      h1.blobs = h.blobs ∧ p = (cells.head?).map (fun c => c.buf) := by
  cases cells with
  | nil => exact ⟨none, h, list, listPoll_nil hr, hr, rfl, rfl⟩
  | cons c cs =>
    obtain ⟨h1, list1, e, hr1, hb, -⟩ := listPoll_repr hr
    exact ⟨some c.buf, h1, list1, e, hr1, hb, rfl⟩

theorem listPop_total {h : Heap} {list : list_t} {cells : List Cell}
    (hr : Represents h list cells) :
    ∃ p h1 list1, listPop h list = some (p, h1, list1) ∧ Represents h1 list1 cells.dropLast ∧
      h1.blobs = h.blobs ∧ p = (cells.getLast?).map (fun c => c.buf) := by
  rcases nil_or_snoc cells with rfl | ⟨xs, c, rfl⟩
  · exact ⟨none, h, list, listPop_nil hr, hr, rfl, rfl⟩
  · obtain ⟨h1, list1, e, hr1, hb, -⟩ := listPop_repr hr
    exact ⟨some c.buf, h1, list1, e, by simpa using hr1, hb, by simp⟩

theorem free_live {cells : List Cell} {b : List (Option (List Nat))} (hb : Bufs b cells)
    (c : Cell) (hc : c ∈ cells) : free b (some c.buf) = some (b.set c.buf none) := by
  simp [free, hb c hc]

theorem listRemove_front_iff (h : Heap) (list : list_t) (h2 : Heap) (list2 : list_t) :
    listRemove h list FRONT = some (h2, list2) ↔
      ∃ p h1, listPoll h list = some (p, h1, list2) ∧ h2.nodes = h1.nodes ∧
        free h1.blobs p = some h2.blobs := by
  cases e : listPoll h list with
  | none => simp [listRemove, e]
  | some r =>
    obtain ⟨p, h1, l1⟩ := r
    cases e2 : free h1.blobs p with
    | none => simp [listRemove, e, e2]
    | some b =>
      simp only [listRemove, e, e2, if_true, Option.bind_eq_bind, Option.some_bind,
        Option.some.injEq, Prod.mk.injEq]
      constructor
      · rintro ⟨rfl, rfl⟩
        exact ⟨p, h1, ⟨rfl, rfl, rfl⟩, rfl, e2⟩
      · rintro ⟨p', h1', ⟨rfl, rfl, rfl⟩, hn, hb⟩
        rw [e2] at hb
        cases h2
        simp_all

theorem listRemove_back_iff (h : Heap) (list : list_t) (h2 : Heap) (list2 : list_t) :
    listRemove h list BACK = some (h2, list2) ↔
      ∃ p h1, listPop h list = some (p, h1, list2) ∧ h2.nodes = h1.nodes ∧
        free h1.blobs p = some h2.blobs := by
  have hne : BACK ≠ FRONT := by decide
  cases e : listPop h list with
  | none => simp [listRemove, e, hne]
  | some r =>
    obtain ⟨p, h1, l1⟩ := r
    cases e2 : free h1.blobs p with
    | none => simp [listRemove, e, e2, hne]
    | some b =>
      simp only [listRemove, e, e2, hne, if_true, if_false, Option.bind_eq_bind,
        Option.some_bind, Option.some.injEq, Prod.mk.injEq]
      constructor
      · rintro ⟨rfl, rfl⟩
        exact ⟨p, h1, ⟨rfl, rfl, rfl⟩, rfl, e2⟩
      · rintro ⟨p', h1', ⟨rfl, rfl, rfl⟩, hn, hb⟩
        rw [e2] at hb
        cases h2
        simp_all

theorem free_of_taken {h1 : Heap} {list1 : list_t} {cells rest : List Cell} {p : Ptr}
    (hb : Bufs h1.blobs cells) (hr1 : Represents h1 list1 rest)
    (hp : p = none ∧ rest = cells ∨ ∃ c, p = some c.buf ∧ c ∈ cells ∧
      c.buf ∉ rest.map Cell.buf) :
    ∃ b, free h1.blobs p = some b ∧ bytesAt ⟨h1.nodes, b⟩ p = none ∧
      Represents ⟨h1.nodes, b⟩ list1 rest := by
  rcases hp with ⟨rfl, -⟩ | ⟨c, rfl, hc, hnot⟩
  · exact ⟨h1.blobs, rfl, rfl, hr1⟩
  · refine ⟨_, free_live hb c hc, ?_, Represents_blobs _ (Bufs_free _ hnot hr1.2.1) hr1⟩
    simp [bytesAt, deref_set _ _ _ _ (deref_lt (hb c hc))]

/-- C11: `listRemove` with `FRONT` returns exactly when `listPoll` followed by
`free` of the polled buffer does, and then leaves the header and the nodes
`listPoll` leaves; with `BACK` the same holds for `listPop`; with any other
flag nothing changes.  On a well-formed list both removals return, the removed
buffer is no longer live, and the list holds the values it holds after the
poll, respectively the pop. -/
theorem listRemove_refines (h : Heap) (list : list_t) :
    (∀ h2 list2, listRemove h list FRONT = some (h2, list2) ↔
      ∃ p h1, listPoll h list = some (p, h1, list2) ∧ h2.nodes = h1.nodes ∧
        free h1.blobs p = some h2.blobs) ∧
    (∀ h2 list2, listRemove h list BACK = some (h2, list2) ↔
      ∃ p h1, listPop h list = some (p, h1, list2) ∧ h2.nodes = h1.nodes ∧
        free h1.blobs p = some h2.blobs) ∧
    (∀ e, e ≠ FRONT → e ≠ BACK → listRemove h list e = some (h, list)) ∧
    (WellFormed h list →
      (∃ p h1 list1 h2, listPoll h list = some (p, h1, list1) ∧
        listRemove h list FRONT = some (h2, list1) ∧ h2.nodes = h1.nodes ∧
        bytesAt h2 p = none ∧ forwardValues h2 list1 = forwardValues h1 list1 ∧
        WellFormed h2 list1) ∧
      (∃ p h1 list1 h2, listPop h list = some (p, h1, list1) ∧
        listRemove h list BACK = some (h2, list1) ∧ h2.nodes = h1.nodes ∧
        bytesAt h2 p = none ∧ forwardValues h2 list1 = forwardValues h1 list1 ∧
        WellFormed h2 list1)) := by
  refine ⟨listRemove_front_iff h list, listRemove_back_iff h list,
    fun e h1 h2 => listRemove_other h1 h2, ?_⟩
  rintro ⟨cells, hr⟩
  constructor
  · obtain ⟨p, h1, list1, e1, hr1, hb1, hp⟩ := listPoll_total hr
    have hbufs : Bufs h1.blobs cells := by rw [hb1]; exact hr.2.1
    have hcase : p = none ∧ cells.tail = cells ∨ ∃ c, p = some c.buf ∧ c ∈ cells ∧
        c.buf ∉ cells.tail.map Cell.buf := by
      cases cells with
      | nil => exact Or.inl ⟨hp, rfl⟩
      | cons c cs =>
        exact Or.inr ⟨c, hp, List.mem_cons_self _ _, (List.nodup_cons.1 hr.2.2.2.2.2.2).1⟩
    obtain ⟨b, hfree, hgone, hr2⟩ := free_of_taken hbufs hr1 hcase
    refine ⟨p, h1, list1, ⟨h1.nodes, b⟩, e1, ?_, rfl, hgone, ?_, ⟨_, hr2⟩⟩
    · exact (listRemove_front_iff h list _ _).2 ⟨p, h1, e1, rfl, hfree⟩
    · rw [forwardValues_repr hr2, forwardValues_repr hr1]
  · obtain ⟨p, h1, list1, e1, hr1, hb1, hp⟩ := listPop_total hr
    have hbufs : Bufs h1.blobs cells := by rw [hb1]; exact hr.2.1
    have hcase : p = none ∧ cells.dropLast = cells ∨ ∃ c, p = some c.buf ∧ c ∈ cells ∧
        c.buf ∉ cells.dropLast.map Cell.buf := by
      rcases nil_or_snoc cells with rfl | ⟨xs, c, rfl⟩
      · exact Or.inl ⟨hp, rfl⟩
      · refine Or.inr ⟨c, by simpa using hp, by simp, ?_⟩
        have hnd := hr.2.2.2.2.2.2
        rw [List.map_append, List.nodup_append] at hnd
        rw [List.dropLast_concat]
        intro hm
        exact hnd.2.2 hm (by simp)
    obtain ⟨b, hfree, hgone, hr2⟩ := free_of_taken hbufs hr1 hcase
    refine ⟨p, h1, list1, ⟨h1.nodes, b⟩, e1, ?_, rfl, hgone, ?_, ⟨_, hr2⟩⟩
    · exact (listRemove_back_iff h list _ _).2 ⟨p, h1, e1, rfl, hfree⟩
    · rw [forwardValues_repr hr2, forwardValues_repr hr1]

/-- C11, at the sample list. -/
theorem listRemove_refines_witness :
    WellFormed demoHeap demoList ∧
    (∃ p h1 list1 h2, listPoll demoHeap demoList = some (p, h1, list1) ∧
      listRemove demoHeap demoList FRONT = some (h2, list1) ∧ h2.nodes = h1.nodes ∧
      bytesAt h2 p = none ∧ forwardValues h2 list1 = forwardValues h1 list1 ∧
      WellFormed h2 list1) ∧
    (∃ p h1 list1 h2, listPop demoHeap demoList = some (p, h1, list1) ∧
      listRemove demoHeap demoList BACK = some (h2, list1) ∧ h2.nodes = h1.nodes ∧
      bytesAt h2 p = none ∧ forwardValues h2 list1 = forwardValues h1 list1 ∧
      WellFormed h2 list1) :=
  ⟨⟨demoCells, demo_represents⟩,
    (listRemove_refines demoHeap demoList).2.2.2 ⟨demoCells, demo_represents⟩⟩

theorem listInsert_total {h : Heap} {list : list_t} {cells : List Cell} (before : Ptr)
    (data : List Nat) (size : Nat) (hr : Represents h list cells)
    (hok : nodeArgOk h list before = true) (hsz : size ≤ data.length) :
    ∃ h' list' cells', listInsert h list before data size = some (h', list') ∧
      Represents h' list' cells' ∧ cells'.length = cells.length + 1 := by
  cases cells with
  | nil =>
    obtain ⟨h', list', h1, h2⟩ := listAdd_repr data size hr hsz
    exact ⟨h', list', _, by rw [listInsert_nil before data size hr]; exact h1, h2, by simp⟩
  | cons c cs =>
    cases before with
    | none =>
      obtain ⟨h', list', h1, h2⟩ := listInsert_front data size hr hsz
      exact ⟨h', list', _, h1, h2, by simp⟩
    | some a =>
      obtain ⟨xs, b, ys, e, rfl⟩ := isNodeOf_repr hr hok
      rw [e] at hr
      obtain ⟨h', list', h1, h2⟩ := listInsert_after data size hr hsz
      refine ⟨h', list', _, h1, h2, ?_⟩
      rw [e]
      simp only [List.length_append, List.length_cons]
      omega

theorem length_step {list list' : list_t} {n m : Nat} (h1 : list.length = (n : Int))
    (h2 : list'.length = (m : Int)) (hm : m = n + 1) : list'.length = list.length + 1 := by
  rw [h1, h2, hm]
  push_cast
  ring

/-- C19: `listInsert`, `listPluck` and `listRemove` keep a list well-formed.  On
a well-formed list, with `before` / `removed` `NULL` or a node of the list, each
call returns and leaves a well-formed list whose `length` is its node count and
whose `first` is `NULL` iff `last` is `NULL` iff `length` is 0; `listInsert`
increases `length` by exactly 1 whichever branch it takes, and `listPluck` of a
node decreases it by exactly 1. -/
theorem mutators_keep_well_formed (h : Heap) (list : list_t) (hwf : WellFormed h list) :
    (∀ before data size, nodeArgOk h list before = true → size ≤ data.length →
      ∃ h' list', listInsert h list before data size = some (h', list') ∧
        WellFormed h' list' ∧ CountsAgree h' list' ∧ list'.length = list.length + 1) ∧
    (∀ removed, nodeArgOk h list removed = true →
      ∃ p h' list', listPluck h list removed = some (p, h', list') ∧
        WellFormed h' list' ∧ CountsAgree h' list' ∧
        (removed ≠ none → list'.length = list.length - 1)) ∧
    (∀ e, ∃ h' list', listRemove h list e = some (h', list') ∧
      WellFormed h' list' ∧ CountsAgree h' list') := by
  obtain ⟨cells, hr⟩ := hwf
  refine ⟨?_, ?_, ?_⟩
  · intro before data size hok hsz
    obtain ⟨h', list', cells', e, hr', hlen⟩ := listInsert_total before data size hr hok hsz
    exact ⟨h', list', e, ⟨_, hr'⟩, CountsAgree_repr hr',
      length_step hr.2.2.2.2.1 hr'.2.2.2.2.1 hlen⟩
  · intro removed hok
    cases removed with
    | none =>
      exact ⟨none, h, list, listPluck_null h list, ⟨_, hr⟩, CountsAgree_repr hr,
        fun hne => absurd rfl hne⟩
    | some a =>
      obtain ⟨xs, c, ys, e, rfl⟩ := isNodeOf_repr hr hok
      rw [e] at hr
      obtain ⟨h', list', e', hr', -, hlen⟩ := listPluck_repr hr
      exact ⟨_, h', list', e', ⟨_, hr'⟩, CountsAgree_repr hr', fun _ => hlen⟩
  · intro e
    obtain ⟨h', list', cells', e', hr'⟩ := applyOp_repr (Op.remove e) hr rfl
    exact ⟨h', list', e', ⟨_, hr'⟩, CountsAgree_repr hr'⟩

/-- C19, at the sample list: an insertion after its middle node, the removal of
that node, and a removal at the front. -/
theorem mutators_keep_well_formed_witness :
    WellFormed demoHeap demoList ∧ nodeArgOk demoHeap demoList (some 1) = true ∧
    2 ≤ [8, 9].length ∧
    (∃ h' list', listInsert demoHeap demoList (some 1) [8, 9] 2 = some (h', list') ∧
      WellFormed h' list' ∧ CountsAgree h' list' ∧ list'.length = demoList.length + 1) ∧
    (∃ p h' list', listPluck demoHeap demoList (some 1) = some (p, h', list') ∧
      WellFormed h' list' ∧ CountsAgree h' list' ∧
      ((some 1 : Ptr) ≠ none → list'.length = demoList.length - 1)) ∧
    (∃ h' list', listRemove demoHeap demoList FRONT = some (h', list') ∧
      WellFormed h' list' ∧ CountsAgree h' list') :=
  ⟨⟨demoCells, demo_represents⟩, by decide, by decide,
    (mutators_keep_well_formed demoHeap demoList ⟨demoCells, demo_represents⟩).1
      (some 1) [8, 9] 2 (by decide) (by decide),
    (mutators_keep_well_formed demoHeap demoList ⟨demoCells, demo_represents⟩).2.1
      (some 1) (by decide),
    (mutators_keep_well_formed demoHeap demoList ⟨demoCells, demo_represents⟩).2.2 FRONT⟩

/-- C20: on an empty list (`length` 0, `first` and `last` `NULL`) `listPop` and
`listPoll` return `NULL` and change neither the heap nor the header, so `length`
stays 0 and `first` and `last` stay `NULL`. -/
theorem listPop_listPoll_empty (h : Heap) (list : list_t) (hlen : list.length = 0)
    (hf : list.first = none) (hl : list.last = none) :
    (∃ h' list', listPop h list = some (none, h', list') ∧ h' = h ∧ list' = list ∧
      list'.length = 0 ∧ list'.first = none ∧ list'.last = none) ∧
    (∃ h' list', listPoll h list = some (none, h', list') ∧ h' = h ∧ list' = list ∧
      list'.length = 0 ∧ list'.first = none ∧ list'.last = none) := by
  refine ⟨⟨h, list, ?_, rfl, rfl, hlen, hf, hl⟩, ⟨h, list, ?_, rfl, rfl, hlen, hf, hl⟩⟩
  · simp [listPop, hl]
  · simp [listPoll, hf]

/-- C20, at the list `listCreate` returns, in the sample heap. -/
theorem listPop_listPoll_empty_witness :
    listCreate.length = 0 ∧ listCreate.first = none ∧ listCreate.last = none ∧
    (∃ h' list', listPop demoHeap listCreate = some (none, h', list') ∧ h' = demoHeap ∧
      list' = listCreate ∧ list'.length = 0 ∧ list'.first = none ∧ list'.last = none) ∧
    (∃ h' list', listPoll demoHeap listCreate = some (none, h', list') ∧ h' = demoHeap ∧
      list' = listCreate ∧ list'.length = 0 ∧ list'.first = none ∧ list'.last = none) :=
  ⟨rfl, rfl, rfl, listPop_listPoll_empty demoHeap listCreate rfl rfl rfl⟩

/-! ## Event handlers -/

theorem execute_eq_documented (code : Routines) (funcSym : Nat) (hnd : event_handler_t)
    (args : Ptr) (hf : hnd.func = some funcSym) :
    execute code funcSym hnd args = executeDocumented code hnd args := by
  simp [execute, executeDocumented, hf]

/-- C12, the failing input: the sample handler carries the routine at address
1, which returns 7, while the identifier `func` names the routine at address 0.
`execute` calls the routine at 0 and returns its status 0; the documented call
is one call of the routine at 1 with status 7.  The handler is only read. -/
theorem execute_calls_func_symbol :
    execute demoCode 0 demoHandler (some 9) = some (0, [⟨0, some 5, some 9⟩]) ∧
      executeDocumented demoCode demoHandler (some 9) = some (7, [⟨1, some 5, some 9⟩]) ∧
      execute demoCode 0 demoHandler (some 9) ≠ executeDocumented demoCode demoHandler (some 9) := by
  decide

/-- C13: `eventHandlerAttach` with a routine that is not `NULL` replaces the
handler's dispatch routine by it, with `NULL` it changes nothing, and in both
cases priority and context stay as they were. -/
theorem eventHandlerAttach_frame (hnd : event_handler_t) (a : Nat) (funct : Ptr) :
    (eventHandlerAttach hnd (some a)).func = some a ∧
      eventHandlerAttach hnd none = hnd ∧
      (eventHandlerAttach hnd funct).prio = hnd.prio ∧
      (eventHandlerAttach hnd funct).data = hnd.data := by
  refine ⟨by simp [eventHandlerAttach], by simp [eventHandlerAttach], ?_, ?_⟩ <;>
    cases funct <;> simp [eventHandlerAttach]

/-- C14: the priority getter returns the priority given to `eventHandlerCreate`
for every priority in 0..65535, and after `eventHandlerDestroy` the priority
reads 65535 and the dispatch routine and the context are `NULL`. -/
theorem handler_priority_and_tombstone (hnd : event_handler_t) (prio : Nat) (func data : Ptr)
    (hp : prio ≤ 65535) :
    wventHandlerGetPrio (eventHandlerCreate hnd prio func data) = prio ∧
      wventHandlerGetPrio (eventHandlerDestroy (eventHandlerCreate hnd prio func data))
        = 65535 ∧
      (eventHandlerDestroy (eventHandlerCreate hnd prio func data)).func = none ∧
      (eventHandlerDestroy (eventHandlerCreate hnd prio func data)).data = none := by
  refine ⟨?_, ?_, rfl, rfl⟩
  · simp only [wventHandlerGetPrio, eventHandlerCreate]
    omega
  · simp [wventHandlerGetPrio, eventHandlerDestroy]

/-- C14, at the largest priority value. -/
theorem handler_priority_and_tombstone_witness :
    65535 ≤ 65535 ∧
    wventHandlerGetPrio (eventHandlerCreate ⟨none, 0, none⟩ 65535 (some 1) (some 5)) = 65535 ∧
      wventHandlerGetPrio
        (eventHandlerDestroy (eventHandlerCreate ⟨none, 0, none⟩ 65535 (some 1) (some 5)))
        = 65535 ∧
      (eventHandlerDestroy (eventHandlerCreate ⟨none, 0, none⟩ 65535 (some 1) (some 5))).func
        = none ∧
      (eventHandlerDestroy (eventHandlerCreate ⟨none, 0, none⟩ 65535 (some 1) (some 5))).data
        = none :=
  ⟨by decide,
    handler_priority_and_tombstone ⟨none, 0, none⟩ 65535 (some 1) (some 5) (by decide)⟩

/-- C15 as stated fails: `execute` on the destroyed sample handler is not a
no-op, it makes one dispatch call, with the cleared context `NULL` and the
payload. -/
theorem execute_after_destroy_counterexample :
    execute demoCode 0 (eventHandlerDestroy demoHandler) (some 9)
        = some (0, [⟨0, none, some 9⟩]) ∧
      (execute demoCode 0 (eventHandlerDestroy demoHandler) (some 9)).map
        (fun r => r.2.length) = some 1 := by
  decide

/-- C15, amended: `eventHandlerDestroy` clears the dispatch routine and the
context to `NULL` and sets the priority to 65535, but `execute` does not look at
the tombstone: on a destroyed handler it still makes exactly one dispatch call,
with context `NULL` and the payload, and returns the status of that call. -/
theorem execute_after_destroy (code : Routines) (funcSym : Nat) (f : eventDispatchingRoutine)
    (hnd : event_handler_t) (args : Ptr) (hf : code funcSym = some f) :
    (eventHandlerDestroy hnd).func = none ∧ (eventHandlerDestroy hnd).data = none ∧
      (eventHandlerDestroy hnd).prio = 65535 ∧
      execute code funcSym (eventHandlerDestroy hnd) args
        = some (f none args % 4294967296, [⟨funcSym, none, args⟩]) := by
  refine ⟨rfl, rfl, by simp [eventHandlerDestroy], ?_⟩
  simp [execute, hf, eventHandlerDestroy]

/-- C15 amended, at the sample handler and program. -/
theorem execute_after_destroy_witness :
    demoCode 0 = some (fun (_ _ : Ptr) => 0) ∧
    (eventHandlerDestroy demoHandler).func = none ∧
      (eventHandlerDestroy demoHandler).data = none ∧
      (eventHandlerDestroy demoHandler).prio = 65535 ∧
      execute demoCode 0 (eventHandlerDestroy demoHandler) (some 9)
        = some ((fun (_ _ : Ptr) => 0) none (some 9) % 4294967296, [⟨0, none, some 9⟩]) :=
  ⟨rfl, execute_after_destroy demoCode 0 (fun _ _ => 0) demoHandler (some 9) rfl⟩

theorem execute_ignores_handler_routine (code : Routines) (funcSym : Nat)
    (hnd : event_handler_t) (g : Ptr) (args : Ptr) :
    execute code funcSym { hnd with func := g } args = execute code funcSym hnd args := rfl

/-! ## The scheduler -/

theorem insertPending_perm (x : EventInstance) (l : List EventInstance) :
    (insertPending x l).Perm (x :: l) := by
  induction l with
  | nil => exact List.Perm.refl _
  | cons y ys ih =>
    simp only [insertPending]
    split
    · exact List.Perm.refl _
    · exact (List.Perm.cons y ih).trans (List.Perm.swap x y ys)

theorem dispatchesBefore_prio_le {a b : EventInstance} (h : dispatchesBefore a b) :
    a.base.prio ≤ b.base.prio := by
  rcases h with h | ⟨h, -⟩
  · exact Nat.le_of_lt h
  · exact Nat.le_of_eq h

theorem insertPending_sorted (x : EventInstance) (l : List EventInstance)
    (hs : l.Pairwise dispatchesBefore) (hseq : ∀ y ∈ l, y.seq < x.seq) :
    (insertPending x l).Pairwise dispatchesBefore := by
  induction l with
  | nil => simp [insertPending]
  | cons y ys ih =>
    rw [List.pairwise_cons] at hs
    simp only [insertPending]
    split
    · next hlt =>
      refine List.Pairwise.cons ?_ (List.Pairwise.cons hs.1 hs.2)
      intro z hz
      rcases List.mem_cons.1 hz with rfl | hz
      · exact Or.inl hlt
      · exact Or.inl (Nat.lt_of_lt_of_le hlt (dispatchesBefore_prio_le (hs.1 z hz)))
    · next hge =>
      refine List.Pairwise.cons ?_ (ih hs.2 (fun z hz => hseq z (List.mem_cons_of_mem _ hz)))
      intro z hz
      rcases List.mem_cons.1 ((insertPending_perm x ys).subset hz) with rfl | hz
      · have hy := hseq y (List.mem_cons_self _ _)
        rcases Nat.lt_or_ge y.base.prio z.base.prio with h1 | h1
        · exact Or.inl h1
        · exact Or.inr ⟨by omega, hy⟩
      · exact hs.1 z hz

theorem publishAll_pending (s : Scheduler) (evs : List (Event × Ptr))
    (hs : s.pending.Pairwise dispatchesBefore) (hseq : ∀ y ∈ s.pending, y.seq < s.nextSeq)
    (hreg : ∀ e ∈ evs, e.1 ∈ s.registered) :
    (publishAll s evs).pending.Pairwise dispatchesBefore ∧
      (publishAll s evs).pending.Perm (s.pending ++ stamp s.nextSeq evs) := by
  induction evs generalizing s with
  | nil => exact ⟨hs, by simp [publishAll, stamp]⟩
  | cons e es ih =>
    have hin : e.1 ∈ s.registered := hreg e (List.mem_cons_self _ _)
    have hstep : (PublishEvent s e.1 e.2).2
        = { s with pending := insertPending ⟨e.1, e.2, s.nextSeq⟩ s.pending,
                   nextSeq := s.nextSeq + 1 } := by
      simp [PublishEvent, hin]
    have hperm := insertPending_perm ⟨e.1, e.2, s.nextSeq⟩ s.pending
    obtain ⟨h1, h2⟩ := ih (PublishEvent s e.1 e.2).2
      (by rw [hstep]; exact insertPending_sorted _ _ hs hseq)
      (by
        rw [hstep]
        intro y hy
        rcases List.mem_cons.1 (hperm.subset hy) with rfl | hy
        · exact Nat.lt_succ_self _
        · exact Nat.lt_succ_of_lt (hseq y hy))
      (by
        rw [hstep]
        exact fun e' he' => hreg e' (List.mem_cons_of_mem _ he'))
    refine ⟨h1, ?_⟩
    simp only [publishAll, stamp]
    refine h2.trans ?_
    rw [hstep]
    exact (List.Perm.append_right _ hperm).trans (by
      simpa using (@List.perm_middle _ (⟨e.1, e.2, s.nextSeq⟩ : EventInstance)
        s.pending (stamp (s.nextSeq + 1) es)).symm)

theorem drain_all (code : Routines) (funcSym : Nat) (fuel : Nat) (s : Scheduler)
    (hf : s.pending.length ≤ fuel) :
    (drain code funcSym fuel s).1.map Dispatch.item = s.pending ∧
      (drain code funcSym fuel s).2.pending = [] := by
  induction fuel generalizing s with
  | zero =>
    have : s.pending = [] := List.length_eq_zero.1 (Nat.le_zero.1 hf)
    simp [drain, this]
  | succ fuel ih =>
    cases hp : s.pending with
    | nil => simp [drain, Schedule, hp]
    | cons x rest =>
      have hlen : rest.length ≤ fuel := by
        rw [hp] at hf
        simpa using hf
      have := ih { s with pending := rest, inProcess := none } hlen
      simp [drain, Schedule, hp, this]

theorem stamp_length (n : Nat) (evs : List (Event × Ptr)) : (stamp n evs).length = evs.length := by
  induction evs generalizing n with
  | nil => rfl
  | cons e es ih => simp [stamp, ih]

/-- C16: after any sequence of publishes of registered events to a scheduler
whose queue was empty, the pending queue is sorted by (priority, publish
sequence number), and draining it with `Schedule` dispatches exactly the
published instances, each once, in queue order: numerically smaller priority
first, and equal priorities in publish order; the queue is empty afterwards. -/
theorem publish_then_drain_order (code : Routines) (funcSym : Nat) (s0 : Scheduler)
    (evs : List (Event × Ptr)) (hempty : s0.pending = [])
    (hreg : ∀ e ∈ evs, e.1 ∈ s0.registered) :
    (publishAll s0 evs).pending.Pairwise dispatchesBefore ∧
      (drain code funcSym evs.length (publishAll s0 evs)).1.map Dispatch.item
        = (publishAll s0 evs).pending ∧
      ((drain code funcSym evs.length (publishAll s0 evs)).1.map Dispatch.item).Perm
        (stamp s0.nextSeq evs) ∧
      ((drain code funcSym evs.length (publishAll s0 evs)).1.map Dispatch.item).Pairwise
        dispatchesBefore ∧
      (drain code funcSym evs.length (publishAll s0 evs)).2.pending = [] := by
  obtain ⟨h1, h2⟩ := publishAll_pending s0 evs (by simp [hempty]) (by simp [hempty]) hreg
  rw [hempty, List.nil_append] at h2
  have hlen : (publishAll s0 evs).pending.length ≤ evs.length := by
    rw [h2.length_eq, stamp_length]
  obtain ⟨h3, h4⟩ := drain_all code funcSym evs.length (publishAll s0 evs) hlen
  refine ⟨h1, h3, ?_, ?_, h4⟩
  · rw [h3]
    exact h2
  · rw [h3]
    exact h1

/-- C16, at the sample scheduler and publishes of priorities 5, 1, 3. -/
theorem publish_then_drain_order_witness :
    demoScheduler.pending = [] ∧
    (∀ e ∈ [(demoEvent 0 5, (none : Ptr)), (demoEvent 1 1, none), (demoEvent 2 3, none)],
      e.1 ∈ demoScheduler.registered) ∧
    (publishAll demoScheduler
        [(demoEvent 0 5, none), (demoEvent 1 1, none), (demoEvent 2 3, none)]).pending.Pairwise
      dispatchesBefore ∧
      (drain demoCode 0 3 (publishAll demoScheduler
          [(demoEvent 0 5, none), (demoEvent 1 1, none), (demoEvent 2 3, none)])).1.map
          Dispatch.item
        = (publishAll demoScheduler
          [(demoEvent 0 5, none), (demoEvent 1 1, none), (demoEvent 2 3, none)]).pending ∧
      ((drain demoCode 0 3 (publishAll demoScheduler
          [(demoEvent 0 5, none), (demoEvent 1 1, none), (demoEvent 2 3, none)])).1.map
          Dispatch.item).Perm
        (stamp demoScheduler.nextSeq
          [(demoEvent 0 5, none), (demoEvent 1 1, none), (demoEvent 2 3, none)]) ∧
      ((drain demoCode 0 3 (publishAll demoScheduler
          [(demoEvent 0 5, none), (demoEvent 1 1, none), (demoEvent 2 3, none)])).1.map
          Dispatch.item).Pairwise dispatchesBefore ∧
      (drain demoCode 0 3 (publishAll demoScheduler
          [(demoEvent 0 5, none), (demoEvent 1 1, none), (demoEvent 2 3, none)])).2.pending
        = [] :=
  ⟨rfl, by decide,
    publish_then_drain_order demoCode 0 demoScheduler
      [(demoEvent 0 5, none), (demoEvent 1 1, none), (demoEvent 2 3, none)] rfl (by decide)⟩

theorem publish_examples :
    (drain demoCode 0 3 (publishAll demoScheduler
        [(demoEvent 0 5, none), (demoEvent 1 1, none), (demoEvent 2 3, none)])).1.map
        (fun d => d.item.base.prio) = [1, 3, 5] ∧
      (drain demoCode 0 2 (publishAll demoScheduler
        [(demoEvent 3 2, some 10), (demoEvent 3 2, some 11)])).1.map
        (fun d => d.item.payload) = [some 10, some 11] := by
  decide

/-- C17 as stated fails: a publish of the unregistered event 9 to the sample
scheduler hands the caller no status, `PublishEvent` being declared `void`. -/
theorem publish_unregistered_counterexample :
    demoEvent 9 4 ∉ demoScheduler.registered ∧
      (PublishEvent demoScheduler (demoEvent 9 4) (some 1)).1 = Returned.void ∧
      (PublishEvent demoScheduler (demoEvent 9 4) (some 1)).1 ≠ PublishUnregisteredEvent := by
  decide

/-- C17, amended: a publish of an event that is not in the registry returns
nothing, drops the instance and leaves the scheduler, and so the pending queue
in length and contents, unchanged. -/
theorem publish_unregistered (s : Scheduler) (evt : Event) (args : Ptr)
    (hreg : evt ∉ s.registered) :
    PublishEvent s evt args = (Returned.void, s) ∧
      (PublishEvent s evt args).2.pending = s.pending ∧
      (PublishEvent s evt args).2.pending.length = s.pending.length := by
  have : PublishEvent s evt args = (Returned.void, s) := by simp [PublishEvent, hreg]
  rw [this]
  exact ⟨rfl, rfl, rfl⟩

/-- C17 amended, at the sample scheduler with one instance pending. -/
theorem publish_unregistered_witness :
    demoEvent 9 4 ∉ (PublishEvent demoScheduler (demoEvent 1 1) none).2.registered ∧
    PublishEvent (PublishEvent demoScheduler (demoEvent 1 1) none).2 (demoEvent 9 4) (some 1)
        = (Returned.void, (PublishEvent demoScheduler (demoEvent 1 1) none).2) ∧
      (PublishEvent (PublishEvent demoScheduler (demoEvent 1 1) none).2 (demoEvent 9 4)
          (some 1)).2.pending
        = (PublishEvent demoScheduler (demoEvent 1 1) none).2.pending ∧
      (PublishEvent (PublishEvent demoScheduler (demoEvent 1 1) none).2 (demoEvent 9 4)
          (some 1)).2.pending.length
        = (PublishEvent demoScheduler (demoEvent 1 1) none).2.pending.length :=
  ⟨by decide,
    publish_unregistered (PublishEvent demoScheduler (demoEvent 1 1) none).2 (demoEvent 9 4)
      (some 1) (by decide)⟩

theorem repeatCall_succ (f : Scheduler → Scheduler) (n : Nat) (s : Scheduler) :
    repeatCall f (n + 1) s = f (repeatCall f n s) := by
  induction n generalizing s with
  | zero => rfl
  | succ n ih =>
    show repeatCall f (n + 1) (f s) = f (repeatCall f (n + 1) s)
    rw [ih (f s)]
    rfl

theorem repeatCall_step (f : Scheduler → Scheduler) (n : Nat) (s : Scheduler) :
    repeatCall f (n + 1) s = repeatCall f n (f s) := rfl

theorem SaveContext_first (t : Scheduler) (h0 : t.nesting = 0) :
    SaveContext t = { t with nesting := 1, calls := t.calls ++ [Callback.lock] } := by
  simp [SaveContext, h0]

theorem SaveContext_nested (t : Scheduler) (h0 : t.nesting ≠ 0) :
    SaveContext t = { t with nesting := (t.nesting + 1) % 256 } := by
  simp [SaveContext, h0]

theorem RestoreContext_nested (t : Scheduler) (h1 : t.nesting ≠ 1) :
    RestoreContext t = { t with nesting := (t.nesting + 255) % 256 } := by
  simp [RestoreContext, h1]

theorem RestoreContext_last (t : Scheduler) (h1 : t.nesting = 1) :
    ∃ extra, RestoreContext t = { t with nesting := 0, calls := t.calls ++ extra } ∧
      extra.count Callback.lock = 0 ∧ extra.count Callback.unlock = 1 := by
  cases hp : t.pending with
  | nil => exact ⟨[Callback.unlock], by simp [RestoreContext, h1, hp], by decide, by decide⟩
  | cons x rest =>
    by_cases hx : x.base.prio < t.currentPriority
    · exact ⟨[Callback.unlock, Callback.resume], by simp [RestoreContext, h1, hp, hx],
        by decide, by decide⟩
    · exact ⟨[Callback.unlock], by simp [RestoreContext, h1, hp, hx], by decide, by decide⟩

theorem saves_nowrap (k : Nat) (t : Scheduler) (h1 : 1 ≤ t.nesting)
    (h2 : t.nesting + k ≤ 255) :
    repeatCall SaveContext k t = { t with nesting := t.nesting + k } := by
  induction k generalizing t with
  | zero => rfl
  | succ k ih =>
    have hne : t.nesting ≠ 0 := by omega
    have hmod : (t.nesting + 1) % 256 = t.nesting + 1 := Nat.mod_eq_of_lt (by omega)
    show repeatCall SaveContext k (SaveContext t) = _
    rw [SaveContext_nested t hne, hmod, ih _ (by simp) (by simp; omega)]
    simp only [Scheduler.mk.injEq, true_and, and_true]
    omega

theorem restores_nowrap (k : Nat) (t : Scheduler) (h1 : k + 1 ≤ t.nesting)
    (h2 : t.nesting ≤ 255) :
    repeatCall RestoreContext k t = { t with nesting := t.nesting - k } := by
  induction k generalizing t with
  | zero => rfl
  | succ k ih =>
    have hne : t.nesting ≠ 1 := by omega
    have hmod : (t.nesting + 255) % 256 = t.nesting - 1 := by omega
    show repeatCall RestoreContext k (RestoreContext t) = _
    rw [RestoreContext_nested t hne, hmod, ih _ (by simp; omega) (by simp; omega)]
    simp only [Scheduler.mk.injEq, true_and, and_true]
    omega

theorem saves_from_zero (s : Scheduler) (N : Nat) (h0 : s.nesting = 0) (h1 : 1 ≤ N)
    (h2 : N ≤ 256) :
    repeatCall SaveContext N s
      = { s with nesting := N % 256, calls := s.calls ++ [Callback.lock] } := by
  obtain ⟨M, rfl⟩ : ∃ M, N = M + 1 := ⟨N - 1, by omega⟩
  show repeatCall SaveContext M (SaveContext s) = _
  rw [SaveContext_first s h0]
  by_cases hM : M ≤ 254
  · rw [saves_nowrap M _ (by simp) (by simp; omega)]
    have : (M + 1) % 256 = 1 + M := by omega
    simp [this]
  · obtain ⟨K, rfl⟩ : ∃ K, M = K + 1 := ⟨M - 1, by omega⟩
    have hK : K = 254 := by omega
    subst hK
    rw [repeatCall_succ, saves_nowrap 254 _ (by simp) (by simp)]
    simp [SaveContext]

theorem restores_to_one (t : Scheduler) (N : Nat) (h0 : t.nesting = N % 256) (h1 : 1 ≤ N)
    (h2 : N ≤ 256) :
    repeatCall RestoreContext (N - 1) t = { t with nesting := 1 } := by
  by_cases hN : N ≤ 255
  · have hn : t.nesting = N := by omega
    rw [restores_nowrap (N - 1) t (by omega) (by omega)]
    simp only [Scheduler.mk.injEq, true_and, and_true]
    omega
  · have hN' : N = 256 := by omega
    subst hN'
    have hn : t.nesting = 0 := by simpa using h0
    have e : (256 : Nat) - 1 = 254 + 1 := by norm_num
    rw [e, repeatCall_step, RestoreContext_nested t (by omega), hn,
      restores_nowrap 254 _ (by simp) (by simp)]
    simp

set_option maxRecDepth 100000 in
/-- C18 as stated fails for N = 257: the nesting depth is an 8-bit counter, so
after 256 `SaveContext` calls it reads 0 again and the 257th call is a second 0
to 1 transition: `lock` is invoked twice, not once. -/
theorem nesting_counterexample :
    demoScheduler.nesting = 0 ∧
      (repeatCall SaveContext 257 demoScheduler).calls.count Callback.lock = 2 ∧
      (repeatCall RestoreContext 257 (repeatCall SaveContext 257 demoScheduler)).calls.count
        Callback.lock = 2 := by
  decide

/-- C18, amended: for every N from 1 to 256 and every scheduler state of nesting
depth 0, N `SaveContext` calls followed by N `RestoreContext` calls leave the
nesting depth at its starting value and invoke `lock` exactly once, in the first
`SaveContext` (the 0 to 1 transition), and `unlock` exactly once (on the 1 to 0
transition); a `SaveContext` at depth other than 0 and a `RestoreContext` at
depth other than 1 invoke no callback. -/
theorem nesting_balanced (s : Scheduler) (N : Nat) (h0 : s.nesting = 0) (h1 : 1 ≤ N)
    (h2 : N ≤ 256) :
    (∃ extra, (repeatCall RestoreContext N (repeatCall SaveContext N s)).calls
        = s.calls ++ extra ∧
      extra.count Callback.lock = 1 ∧ extra.count Callback.unlock = 1) ∧
    (repeatCall RestoreContext N (repeatCall SaveContext N s)).nesting = s.nesting ∧
    (SaveContext s).calls = s.calls ++ [Callback.lock] ∧
    (∀ t : Scheduler, t.nesting ≠ 0 → (SaveContext t).calls = t.calls) ∧
    (∀ t : Scheduler, t.nesting ≠ 1 → (RestoreContext t).calls = t.calls) := by
  have hsave := saves_from_zero s N h0 h1 h2
  obtain ⟨M, hM⟩ : ∃ M, N = M + 1 := ⟨N - 1, by omega⟩
  have hrest : repeatCall RestoreContext N (repeatCall SaveContext N s)
      = RestoreContext (repeatCall RestoreContext (N - 1) (repeatCall SaveContext N s)) := by
    rw [hM, repeatCall_succ]
    rfl
  have hone := restores_to_one (repeatCall SaveContext N s) N (by rw [hsave]) h1 h2
  obtain ⟨extra, hlast, hc1, hc2⟩ :=
    RestoreContext_last (repeatCall RestoreContext (N - 1) (repeatCall SaveContext N s))
      (by rw [hone])
  rw [hrest, hlast, hone, hsave]
  refine ⟨⟨Callback.lock :: extra, by simp, ?_, ?_⟩, by simp [h0], ?_, ?_, ?_⟩
  · rw [List.count_cons_self, hc1]
  · rw [List.count_cons_of_ne (by decide), hc2]
  · rw [SaveContext_first s h0]
  · intro t ht
    rw [SaveContext_nested t ht]
  · intro t ht
    rw [RestoreContext_nested t ht]

/-- C18 amended, at the sample scheduler and the deepest nesting, N = 256. -/
theorem nesting_balanced_witness :
    demoScheduler.nesting = 0 ∧ 1 ≤ 256 ∧ 256 ≤ 256 ∧
    (∃ extra, (repeatCall RestoreContext 256 (repeatCall SaveContext 256 demoScheduler)).calls
        = demoScheduler.calls ++ extra ∧
      extra.count Callback.lock = 1 ∧ extra.count Callback.unlock = 1) ∧
    (repeatCall RestoreContext 256 (repeatCall SaveContext 256 demoScheduler)).nesting
      = demoScheduler.nesting ∧
    (SaveContext demoScheduler).calls = demoScheduler.calls ++ [Callback.lock] ∧
    (∀ t : Scheduler, t.nesting ≠ 0 → (SaveContext t).calls = t.calls) ∧
    (∀ t : Scheduler, t.nesting ≠ 1 → (RestoreContext t).calls = t.calls) :=
  ⟨rfl, by decide, by decide, nesting_balanced demoScheduler 256 rfl (by decide) (by decide)⟩

/-! ## Front insertion, cursors at the ends, cursor round trips -/

/-- C21: on a well-formed non-empty list `listInsert` with `before` `NULL` puts
the new item in front of all the others and makes it the first item; on an
empty list `listInsert` yields the one-item list, whatever `before` is.  Either
way the call returns and `length` goes up by exactly 1. -/
theorem listInsert_front_or_empty (h : Heap) (list : list_t) (data : List Nat) (size : Nat)
    (hsz : size ≤ data.length) :
    (∀ c cs, Represents h list (c :: cs) →
      ∃ h' list' x, listInsert h list none data size = some (h', list') ∧
        x.bytes = data.take size ∧ Represents h' list' (x :: c :: cs) ∧
        list'.first = some x.addr ∧
        forwardValues h' list' = some (data.take size :: (c :: cs).map Cell.bytes) ∧
        list'.length = list.length + 1) ∧
    (∀ before, Represents h list [] →
      ∃ h' list' x, listInsert h list before data size = some (h', list') ∧
        x.bytes = data.take size ∧ Represents h' list' [x] ∧
        forwardValues h' list' = some [data.take size] ∧
        list'.length = 1) := by
  constructor
  · intro c cs hr
    obtain ⟨h', list', e, hr'⟩ := listInsert_front data size hr hsz
    refine ⟨h', list', ⟨h.nodes.length, h.blobs.length, data.take size⟩, e, rfl, hr',
      hr'.2.2.1, ?_, ?_⟩
    · simpa using forwardValues_repr hr'
    · exact length_step hr.2.2.2.2.1 hr'.2.2.2.2.1 (by simp)
  · intro before hr
    obtain ⟨h', list', e, hr'⟩ := listAdd_repr data size hr hsz
    rw [List.nil_append] at hr'
    refine ⟨h', list', ⟨h.nodes.length, h.blobs.length, data.take size⟩, ?_, rfl, hr', ?_,
      ?_⟩
    · rw [listInsert_nil before data size hr]
      exact e
    · simpa using forwardValues_repr hr'
    · simpa using hr'.2.2.2.2.1

/-- C21, at the sample list and at the empty list with a `before` that is no
node at all. -/
theorem listInsert_front_or_empty_witness :
    2 ≤ [8, 9].length ∧ Represents demoHeap demoList demoCells ∧
    Represents demoHeap listCreate [] ∧
    (∃ h' list' x, listInsert demoHeap demoList none [8, 9] 2 = some (h', list') ∧
      x.bytes = [8, 9].take 2 ∧ Represents h' list' (x :: demoCells) ∧
      list'.first = some x.addr ∧
      forwardValues h' list' = some ([8, 9].take 2 :: demoCells.map Cell.bytes) ∧
      list'.length = demoList.length + 1) ∧
    (∃ h' list' x, listInsert demoHeap listCreate (some 77) [8, 9] 2 = some (h', list') ∧
      x.bytes = [8, 9].take 2 ∧ Represents h' list' [x] ∧
      forwardValues h' list' = some [[8, 9].take 2] ∧
      list'.length = 1) :=
  ⟨by decide, demo_represents, Represents_create demoHeap,
    (listInsert_front_or_empty demoHeap demoList [8, 9] 2 (by decide)).1 _ _ demo_represents,
    (listInsert_front_or_empty demoHeap listCreate [8, 9] 2 (by decide)).2 (some 77)
      (Represents_create demoHeap)⟩

theorem listNext_null (h : Heap) (iter : list_iter_t) (hc : iter.current = none) :
    listNext h iter = some (none, iter) := by
  simp [listNext, hc]

theorem listPrev_null (h : Heap) (iter : list_iter_t) (hc : iter.current = none) :
    listPrev h iter = some (none, iter) := by
  simp [listPrev, hc]

theorem runCursor_null (h : Heap) (calls : List CursorCall) (iter : list_iter_t)
    (hc : iter.current = none) :
    runCursor h calls iter = some (List.replicate calls.length none, iter) := by
  induction calls with
  | nil => rfl
  | cons c cs ih =>
    cases c
    · simp [runCursor, listNext_null h iter hc, ih, List.replicate_succ]
    · simp [runCursor, listPrev_null h iter hc, ih, List.replicate_succ]
    · simp [runCursor, listCurrent_null h iter hc, ih, List.replicate_succ]

/-- C22: running off an end of the list is absorbing.  On a cursor whose
current node is `NULL`, `listNext`, `listPrev` and `listCurrent` return `NULL`
and leave the cursor as it is, and so does every sequence of such calls.  That
is the state of a cursor after more `listNext` calls from the front (or
`listPrev` calls from the back) than a well-formed list has items, so a later
`listPrev` does not return the last item, and of a cursor made over an empty
list. -/
theorem cursor_end_absorbing (h : Heap) (calls : List CursorCall) :
    (∀ iter : list_iter_t, iter.current = none →
      listNext h iter = some (none, iter) ∧ listPrev h iter = some (none, iter) ∧
        listCurrent h iter = some none ∧
        runCursor h calls iter = some (List.replicate calls.length none, iter)) ∧
    (∀ (list : list_t) (k : Nat), WellFormed h list → list.length < (k : Int) →
      (∃ rs iter, iterN listNext h k ⟨list.first, false⟩ = some (rs, iter) ∧
        listPrev h iter = some (none, iter) ∧
        runCursor h calls iter = some (List.replicate calls.length none, iter)) ∧
      (∃ rs iter, iterN listPrev h k ⟨list.last, false⟩ = some (rs, iter) ∧
        listNext h iter = some (none, iter) ∧
        runCursor h calls iter = some (List.replicate calls.length none, iter))) ∧
    (∀ (list : list_t) (init : Nat) (iter : list_iter_t), list.first = none →
      list.last = none → listIterator list init = some iter →
      runCursor h calls iter = some (List.replicate calls.length none, iter)) := by
  refine ⟨?_, ?_, ?_⟩
  · intro iter hc
    exact ⟨listNext_null h iter hc, listPrev_null h iter hc, listCurrent_null h iter hc,
      runCursor_null h calls iter hc⟩
  · rintro list k ⟨cells, hr⟩ hk
    have hlen := hr.2.2.2.2.1
    rw [hlen] at hk
    have hk' : cells.length < k := by exact_mod_cast hk
    constructor
    · obtain ⟨iter, e, hcur⟩ := iterN_listNext_repr k hr
      exact ⟨_, iter, e, listPrev_null h iter (hcur hk'), runCursor_null h calls iter (hcur hk')⟩
    · obtain ⟨iter, e, hcur⟩ := iterN_listPrev_repr k hr
      exact ⟨_, iter, e, listNext_null h iter (hcur hk'), runCursor_null h calls iter (hcur hk')⟩
  · intro list init iter hf hl hit
    apply runCursor_null
    simp only [listIterator] at hit
    split at hit
    · rw [← Option.some.inj hit]
      exact hf
    · split at hit
      · rw [← Option.some.inj hit]
        exact hl
      · exact absurd hit (by simp)

/-- C22, at the sample list run off at the back end and at an empty list. -/
theorem cursor_end_absorbing_witness :
    WellFormed demoHeap demoList ∧ demoList.length < ((4 : Nat) : Int) ∧
    listCreate.first = none ∧ listCreate.last = none ∧
    listIterator listCreate BACK = some ⟨none, false⟩ ∧
    (∃ rs iter, iterN listNext demoHeap 4 ⟨demoList.first, false⟩ = some (rs, iter) ∧
      listPrev demoHeap iter = some (none, iter) ∧
      runCursor demoHeap [CursorCall.prev, CursorCall.current, CursorCall.next] iter
        = some (List.replicate [CursorCall.prev, CursorCall.current, CursorCall.next].length
            none, iter)) ∧
    runCursor demoHeap [CursorCall.prev, CursorCall.current, CursorCall.next] ⟨none, false⟩
      = some (List.replicate [CursorCall.prev, CursorCall.current, CursorCall.next].length
          none, ⟨none, false⟩) :=
  ⟨⟨demoCells, demo_represents⟩, by decide, rfl, rfl, by decide,
    ((cursor_end_absorbing demoHeap
      [CursorCall.prev, CursorCall.current, CursorCall.next]).2.1 demoList 4
      ⟨demoCells, demo_represents⟩ (by decide)).1,
    (cursor_end_absorbing demoHeap
      [CursorCall.prev, CursorCall.current, CursorCall.next]).2.2 listCreate BACK
      ⟨none, false⟩ rfl rfl (by decide)⟩

/-- C23: on a well-formed list holding `xs ++ c :: d :: ys`, a started cursor
at `c` (not the last item) moved by `listNext` and then `listPrev` returns the
data of `d`, then the data of `c`, and is again the cursor it was; a started
cursor at `d` (not the first item) moved by `listPrev` and then `listNext`
likewise.  On a fresh cursor over a non-empty list the first advance call,
`listNext` or `listPrev` alike, returns the data of the anchor item (the first
for `FRONT`, the last for `BACK`) and leaves the current node where it is. -/
theorem cursor_round_trip (h : Heap) (list : list_t) :
    (∀ xs c d ys, Represents h list (xs ++ c :: d :: ys) →
      listNext h ⟨some c.addr, true⟩ = some (some d.buf, ⟨some d.addr, true⟩) ∧
        listPrev h ⟨some d.addr, true⟩ = some (some c.buf, ⟨some c.addr, true⟩) ∧
        runCursor h [CursorCall.next, CursorCall.prev] ⟨some c.addr, true⟩
          = some ([some d.buf, some c.buf], ⟨some c.addr, true⟩) ∧
        runCursor h [CursorCall.prev, CursorCall.next] ⟨some d.addr, true⟩
          = some ([some c.buf, some d.buf], ⟨some d.addr, true⟩) ∧
        bytesAt h (some c.buf) = some c.bytes ∧ bytesAt h (some d.buf) = some d.bytes) ∧
    (∀ c cs, Represents h list (c :: cs) →
      listIterator list FRONT = some ⟨some c.addr, false⟩ ∧
        listNext h ⟨some c.addr, false⟩ = some (some c.buf, ⟨some c.addr, true⟩) ∧
        listPrev h ⟨some c.addr, false⟩ = some (some c.buf, ⟨some c.addr, true⟩) ∧
        bytesAt h (some c.buf) = some c.bytes) ∧
    (∀ cs c, Represents h list (cs ++ [c]) →
      listIterator list BACK = some ⟨some c.addr, false⟩ ∧
        listNext h ⟨some c.addr, false⟩ = some (some c.buf, ⟨some c.addr, true⟩) ∧
        listPrev h ⟨some c.addr, false⟩ = some (some c.buf, ⟨some c.addr, true⟩) ∧
        bytesAt h (some c.buf) = some c.bytes) := by
  refine ⟨?_, ?_, ?_⟩
  · intro xs c d ys hr
    have hseg := (Seg_append _ _ _ _).1 hr.1
    have hc := hseg.2.1
    have hd := hseg.2.2.1
    simp only [headPtr] at hc
    have hn : listNext h ⟨some c.addr, true⟩ = some (some d.buf, ⟨some d.addr, true⟩) := by
      simp [listNext, listCurrent, hc, hd]
    have hp : listPrev h ⟨some d.addr, true⟩ = some (some c.buf, ⟨some c.addr, true⟩) := by
      simp [listPrev, listCurrent, hc, hd]
    refine ⟨hn, hp, by simp [runCursor, hn, hp], by simp [runCursor, hn, hp], ?_, ?_⟩
    · exact hr.2.1 c (by simp)
    · exact hr.2.1 d (by simp)
  · intro c cs hr
    have hc := hr.1.1
    have hf : list.first = some c.addr := hr.2.2.1
    refine ⟨by rw [listIterator_front, hf], by simp [listNext, hc], by simp [listPrev, hc],
      hr.2.1 c (by simp)⟩
  · intro cs c hr
    have hc := Seg_last hr.1
    have hl : list.last = some c.addr := by
      rw [hr.2.2.2.1, lastPtr_append]
      rfl
    refine ⟨by rw [listIterator_back, hl], by simp [listNext, hc], by simp [listPrev, hc],
      hr.2.1 c (by simp)⟩

/-- C23, at the sample list: the round trip between its first two items and
the fresh cursors at both ends. -/
theorem cursor_round_trip_witness :
    Represents demoHeap demoList ([] ++ ⟨0, 0, [1]⟩ :: ⟨1, 1, [2, 2]⟩ :: [⟨2, 2, [3]⟩]) ∧
    Represents demoHeap demoList (⟨0, 0, [1]⟩ :: [⟨1, 1, [2, 2]⟩, ⟨2, 2, [3]⟩]) ∧
    Represents demoHeap demoList ([⟨0, 0, [1]⟩, ⟨1, 1, [2, 2]⟩] ++ [⟨2, 2, [3]⟩]) ∧
    (listNext demoHeap ⟨some 0, true⟩ = some (some 1, ⟨some 1, true⟩) ∧
      listPrev demoHeap ⟨some 1, true⟩ = some (some 0, ⟨some 0, true⟩) ∧
      runCursor demoHeap [CursorCall.next, CursorCall.prev] ⟨some 0, true⟩
        = some ([some 1, some 0], ⟨some 0, true⟩) ∧
      runCursor demoHeap [CursorCall.prev, CursorCall.next] ⟨some 1, true⟩
        = some ([some 0, some 1], ⟨some 1, true⟩) ∧
      bytesAt demoHeap (some 0) = some [1] ∧ bytesAt demoHeap (some 1) = some [2, 2]) ∧
    (listIterator demoList FRONT = some ⟨some 0, false⟩ ∧
      listNext demoHeap ⟨some 0, false⟩ = some (some 0, ⟨some 0, true⟩) ∧
      listPrev demoHeap ⟨some 0, false⟩ = some (some 0, ⟨some 0, true⟩) ∧
      bytesAt demoHeap (some 0) = some [1]) ∧
    (listIterator demoList BACK = some ⟨some 2, false⟩ ∧
      listNext demoHeap ⟨some 2, false⟩ = some (some 2, ⟨some 2, true⟩) ∧
      listPrev demoHeap ⟨some 2, false⟩ = some (some 2, ⟨some 2, true⟩) ∧
      bytesAt demoHeap (some 2) = some [3]) :=
  ⟨demo_represents, demo_represents, demo_represents,
    (cursor_round_trip demoHeap demoList).1 [] ⟨0, 0, [1]⟩ ⟨1, 1, [2, 2]⟩ [⟨2, 2, [3]⟩]
      demo_represents,
    (cursor_round_trip demoHeap demoList).2.1 ⟨0, 0, [1]⟩ [⟨1, 1, [2, 2]⟩, ⟨2, 2, [3]⟩]
      demo_represents,
    (cursor_round_trip demoHeap demoList).2.2 [⟨0, 0, [1]⟩, ⟨1, 1, [2, 2]⟩] ⟨2, 2, [3]⟩
      demo_represents⟩

end PosOs
